import Mathlib

/-!
Verification of the response-interpretation pipeline of `src/server/ai_service.py`
(Keeydi/LedgerMonitor).  Python strings are modelled as `List Char`, Python floats
as exact rationals `ℚ`, and JSON values as an inductive `Json` type.  The Python
string primitives the code uses (`split`, `strip`, `find`, `rfind`, slicing,
`startswith`, `endswith`, the two `re.sub` calls and the one `re.finditer`
pattern) are given explicit executable models below, and `json.loads` is modelled
by a fuel-based recursive-descent parser for the JSON fragment the service
exchanges (no exponents, no escape sequences, which the pipeline never produces
on the paths the claims are about).
-/

namespace LedgerAI

/-- Characters matched by the Python regex class `\s` and stripped by `str.strip`
(ASCII range, which is all the code ever feeds it). -/
def pyIsSpace (c : Char) : Bool :=
  c = ' ' || c = '\t' || c = '\n' || c = '\r' || c = '\x0b' || c = '\x0c'

/-- Python `str.strip`, left half. -/
def pyStripLeft (l : List Char) : List Char := l.dropWhile pyIsSpace

/-- Python `str.strip`, right half. -/
def pyStripRight (l : List Char) : List Char := (l.reverse.dropWhile pyIsSpace).reverse

/-- Python `str.strip`. -/
def pyStrip (l : List Char) : List Char := pyStripRight (pyStripLeft l)

/-- First occurrence of `sep` in the list: returns the part before the match and
the part after it (Python `str.split` building block; leftmost match). -/
def splitFirst (sep : List Char) : List Char → Option (List Char × List Char)
  | [] => none
  | c :: rest =>
    if sep.isPrefixOf (c :: rest) then some ([], (c :: rest).drop sep.length)
    else
      match splitFirst sep rest with
      | some (p, q) => some (c :: p, q)
      | none => none

/-- The triple-backtick fence delimiter. -/
def TICKS : List Char := ['`', '`', '`']

/-- Python `str.split("```")`, fuelled (each step consumes at least the
separator, so `length + 1` steps always suffice). -/
def splitTicksAux : Nat → List Char → List (List Char)
  | 0, l => [l]
  | f + 1, l =>
    match splitFirst TICKS l with
    | none => [l]
    | some pq => pq.1 :: splitTicksAux f pq.2

/-- Python `str.split("```")`. -/
def splitTicks (l : List Char) : List (List Char) := splitTicksAux (l.length + 1) l

/-- Python `str.find(c)` (index of the first occurrence). -/
def pyFindChar (c : Char) : List Char → Option Nat
  | [] => none
  | x :: rest => if x = c then some 0 else (pyFindChar c rest).map (· + 1)

/-- Python `str.rfind(c)` (index of the last occurrence). -/
def pyRfindChar (c : Char) : List Char → Option Nat
  | [] => none
  | x :: rest =>
    match pyRfindChar c rest with
    | some i => some (i + 1)
    | none => if x = c then some 0 else none

/-- Python slicing `s[a:b]` (for `0 ≤ a ≤ b`). -/
def strSlice (l : List Char) (a b : Nat) : List Char := (l.drop a).take (b - a)

/-- Python substring containment `needle in haystack`. -/
def hasSub (needle : List Char) : List Char → Bool
  | [] => needle.isPrefixOf []
  | c :: rest => needle.isPrefixOf (c :: rest) || hasSub needle rest

/-! ## The JSON data model -/

/-- JSON values as decoded by `json.loads`: Python dicts are association lists
with the insertion-order/overwrite semantics of `objSet` below. -/
inductive Json where
  | null
  | bool (b : Bool)
  | num (q : ℚ)
  | str (s : String)
  | arr (xs : List Json)
  | obj (kvs : List (String × Json))

/-- Python `dict.get(k)` / `k in d` on the association list. -/
def objGet (kvs : List (String × Json)) (k : String) : Option Json :=
  match kvs with
  | [] => none
  | (k2, v) :: rest => if k2 = k then some v else objGet rest k

/-- Python `d[k] = v`: replace the value in place if the key exists, else append. -/
def objSet (kvs : List (String × Json)) (k : String) (v : Json) : List (String × Json) :=
  match kvs with
  | [] => [(k, v)]
  | (k2, w) :: rest => if k2 = k then (k2, v) :: rest else (k2, w) :: objSet rest k v

/-! ## Decimal digits -/

/-- The decimal digit character for `d < 10`. -/
def digitChar (d : Nat) : Char := Char.ofNat (48 + d)

/-- Decimal rendering of a natural number (fuelled accumulator form; a number
below `10 ^ f` has at most `f` digits). -/
def natCharsAux : Nat → Nat → List Char → List Char
  | 0, _, acc => acc
  | f + 1, n, acc =>
    if n < 10 then digitChar n :: acc
    else natCharsAux f (n / 10) (digitChar (n % 10) :: acc)

/-- Decimal rendering of a natural number. -/
def natChars (n : Nat) : List Char := natCharsAux (n + 1) n []

/-- Numeric value of a decimal digit character. -/
def digitVal (c : Char) : Nat := c.toNat - 48

/-- Numeric value of a decimal digit string. -/
def natFromDigits (l : List Char) : Nat := l.foldl (fun a c => 10 * a + digitVal c) 0

/-- Python `float(s)` on strings drawn from the regex class `[0-9.]+`: digits with
at most one decimal point (modelled as an exact rational). -/
def parsePyFloat (l : List Char) : Option ℚ :=
  if l.all Char.isDigit then
    if l.isEmpty then none else some (natFromDigits l)
  else
    match splitFirst ['.'] l with
    | none => none
    | some ipfp =>
      if (ipfp.1.all Char.isDigit && ipfp.2.all Char.isDigit)
          && (!ipfp.1.isEmpty || !ipfp.2.isEmpty) then
        some (mkRat (natFromDigits ipfp.1 * 10 ^ ipfp.2.length + natFromDigits ipfp.2)
          (10 ^ ipfp.2.length))
      else none

/-! ## The strict JSON parser (model of `json.loads`) -/

/-- Skip JSON whitespace. -/
def skipWs (l : List Char) : List Char := l.dropWhile pyIsSpace

/-- Parse the remainder of a JSON string literal after the opening quote
(escape sequences are outside the modelled fragment). -/
def pStrRest (l : List Char) : Option (String × List Char) :=
  match l.dropWhile (fun c => c ≠ '"') with
  | '"' :: r => some (String.mk (l.takeWhile (fun c => c ≠ '"')), r)
  | _ => none

/-- Parse a JSON number (optional minus, digits, optional fraction; exponents are
outside the modelled fragment). -/
def pNum (l : List Char) : Option (Json × List Char) :=
  let neg : Bool := l.headD 'x' = '-'
  let l1 := if neg then l.tail else l
  let ds := l1.takeWhile Char.isDigit
  let l2 := l1.dropWhile Char.isDigit
  if ds.isEmpty then none
  else if l2.headD 'x' = '.' then
    let l3 := l2.tail
    let fs := l3.takeWhile Char.isDigit
    let l4 := l3.dropWhile Char.isDigit
    if fs.isEmpty then none
    else
      let v : ℚ := mkRat (natFromDigits ds * 10 ^ fs.length + natFromDigits fs) (10 ^ fs.length)
      some (Json.num (if neg then -v else v), l4)
  else some (Json.num (if neg then -(natFromDigits ds : ℚ) else (natFromDigits ds : ℚ)), l2)

mutual

/-- Parse a JSON value (fuel-based recursion). -/
def pVal : Nat → List Char → Option (Json × List Char)
  | 0, _ => none
  | f + 1, s =>
    match skipWs s with
    | '{' :: r =>
      match skipWs r with
      | '}' :: r2 => some (Json.obj [], r2)
      | r1 => pMembers f r1 []
    | '[' :: r =>
      match skipWs r with
      | ']' :: r2 => some (Json.arr [], r2)
      | r1 => pItems f r1 []
    | '"' :: r => (pStrRest r).map (fun p => (Json.str p.1, p.2))
    | 't' :: r => if ['r', 'u', 'e'].isPrefixOf r then some (Json.bool true, r.drop 3) else none
    | 'f' :: r => if ['a', 'l', 's', 'e'].isPrefixOf r then some (Json.bool false, r.drop 4) else none
    | 'n' :: r => if ['u', 'l', 'l'].isPrefixOf r then some (Json.null, r.drop 3) else none
    | c :: r => if c = '-' || c.isDigit then pNum (c :: r) else none
    | [] => none

/-- Parse the members of a JSON object after the opening brace (nonempty case). -/
def pMembers : Nat → List Char → List (String × Json) → Option (Json × List Char)
  | 0, _, _ => none
  | f + 1, s, acc =>
    match skipWs s with
    | '"' :: r =>
      match pStrRest r with
      | none => none
      | some kr =>
        match skipWs kr.2 with
        | ':' :: r3 =>
          match pVal f r3 with
          | none => none
          | some vr =>
            match skipWs vr.2 with
            | ',' :: r5 => pMembers f r5 (objSet acc kr.1 vr.1)
            | '}' :: r5 => some (Json.obj (objSet acc kr.1 vr.1), r5)
            | _ => none
        | _ => none
    | _ => none

/-- Parse the items of a JSON array after the opening bracket (nonempty case). -/
def pItems : Nat → List Char → List Json → Option (Json × List Char)
  | 0, _, _ => none
  | f + 1, s, acc =>
    match pVal f s with
    | none => none
    | some vr =>
      match skipWs vr.2 with
      | ',' :: r2 => pItems f r2 (acc ++ [vr.1])
      | ']' :: r2 => some (Json.arr (acc ++ [vr.1]), r2)
      | _ => none

end

/-- Model of `json.loads`: parse a complete document (trailing whitespace only). -/
def parseJsonOpt (l : List Char) : Option Json :=
  match pVal (2 * l.length + 2) l with
  | some jr => if skipWs jr.2 = [] then some jr.1 else none
  | none => none

/-- Models the `str(parse_error)` text of the `json.JSONDecodeError`; the exact
Python message varies with the input and is not depended on by any claim. -/
def JSON_DECODE_MSG : String := "Expecting value"

/-- Model of `json.loads` with the captured exception message. -/
def parseJsonE (l : List Char) : Except String Json :=
  match parseJsonOpt l with
  | some j => Except.ok j
  | none => Except.error JSON_DECODE_MSG

/-! ## The response interpreter (`analyze_image_with_gemini`, lines 250-353) -/

/-- Lines 253-260: if the text starts with a fence, split on triple backticks,
take the middle part, and drop a leading `json` language tag. -/
def stripFence (t0 : List Char) : List Char :=
  if TICKS.isPrefixOf t0 then
    if 1 < (splitTicks t0).length then
      if ['j', 's', 'o', 'n'].isPrefixOf ((splitTicks t0).getD 1 []) then
        ((splitTicks t0).getD 1 []).drop 4
      else (splitTicks t0).getD 1 []
    else t0
  else t0

/-- Line 263-264: drop a leading standalone `` ```json `` marker. -/
def stripJsonFence (t : List Char) : List Char :=
  if ['`', '`', '`', 'j', 's', 'o', 'n'].isPrefixOf t then t.drop 7 else t

/-- Line 265-266: drop a leading bare fence. -/
def stripOpenFence (t : List Char) : List Char :=
  if TICKS.isPrefixOf t then t.drop 3 else t

/-- Line 267-268: drop a trailing bare fence. -/
def stripCloseFence (t : List Char) : List Char :=
  if TICKS.isSuffixOf t then t.take (t.length - 3) else t

/-- Markdown code-fence cleanup, `ai_service.py` lines 250-269: strip, split on
triple backticks taking the middle part, drop a `json` language tag, peel any
leftover fence delimiters, strip again. -/
def cleanupResponse (raw : List Char) : List Char :=
  pyStrip (stripCloseFence (stripOpenFence (stripJsonFence (stripFence (pyStrip raw)))))

/-- Embedded-object extraction, lines 271-276: if the text contains both braces,
slice from the first opening brace to the last closing brace inclusive, guarded
by `start_idx < end_idx`. -/
def extractJsonSlice (l : List Char) : List Char :=
  if l.contains '{' && l.contains '}' then
    match pyFindChar '{' l, pyRfindChar '}' l with
    | some s, some e => if s < e + 1 then strSlice l s (e + 1) else l
    | _, _ => l
  else l

/-- The scanner behind `re.sub(r',\s*CLOSE', 'CLOSE', text)`: `buf` holds a
pending comma followed by whitespace that may still become a match.  When the
closing delimiter arrives, the whole buffer is replaced by the bare delimiter;
any other non-whitespace character flushes the buffer unchanged (a fresh comma
restarts it, since a later match may begin there). -/
def subAux (close : Char) : List Char → List Char → List Char
  | buf, [] => buf
  | buf, c :: rest =>
    if buf.isEmpty then
      if c = ',' then subAux close [','] rest
      else c :: subAux close [] rest
    else
      if c = close then close :: subAux close [] rest
      else if pyIsSpace c then subAux close (buf ++ [c]) rest
      else if c = ',' then buf ++ subAux close [','] rest
      else (buf ++ [c]) ++ subAux close [] rest

/-- Python `re.sub(r',\s*CLOSE', 'CLOSE', text)`: each non-overlapping,
leftmost match of a comma followed by whitespace and the closing delimiter is
replaced by the bare delimiter. -/
def subCommaClose (close : Char) (l : List Char) : List Char := subAux close [] l

/-- The backward brace scan of lines 294-303, walking the reversed prefix: on a
closing brace increment the depth, on an opening brace decrement it and stop
when it reaches zero, returning that index. -/
def findOpenAux : List Char → Int → Option Nat
  | [], _ => none
  | c :: rest, cnt =>
    if c = '}' then findOpenAux rest (cnt + 1)
    else if c = '{' then
      if cnt - 1 = 0 then some rest.length else findOpenAux rest (cnt - 1)
    else findOpenAux rest cnt

/-- `start_idx` after the backward scan from index `lb` (defaults to `lb` when
the loop finds no matching opening brace, as in the Python loop). -/
def scanStart (l : List Char) (lb : Nat) : Nat :=
  (findOpenAux ((l.take (lb + 1)).reverse) 0).getD lb

/-- The malformation-repair attempt of lines 281-309: remove trailing commas
before closing braces and brackets, locate the last closing brace (the code
requires its index to be positive), scan backward for the matching opening
brace, slice that span and retry `json.loads`; any failure returns `none`
(the code falls through to regex salvage). -/
def repairAttempt (l : List Char) : Option Json :=
  let fixed := subCommaClose ']' (subCommaClose '}' l)
  match pyRfindChar '}' fixed with
  | some lb =>
    if 0 < lb then parseJsonOpt (strSlice fixed (scanStart fixed lb) (lb + 1))
    else none
  | none => none

/-! ## Regex salvage (lines 310-339) -/

/-- The character class `[0-9.]`. -/
def isDigitDot (c : Char) : Bool := c.isDigit || c = '.'

/-- Match a literal token, returning the remainder. -/
def matchLit (lit : List Char) (l : List Char) : Option (List Char) :=
  if lit.isPrefixOf l then some (l.drop lit.length) else none

/-- One attempt of the pattern
`\{\s*"plateNumber"\s*:\s*"([^"]+)"\s*,\s*"confidence"\s*:\s*([0-9.]+)` at the
head of the input; on success returns the two captured groups and the remainder
after the match. -/
def matchFragment (l : List Char) : Option ((String × String) × List Char) :=
  match l with
  | '{' :: r0 =>
    match matchLit "\"plateNumber\"".toList (skipWs r0) with
    | none => none
    | some r1 =>
      match skipWs r1 with
      | ':' :: r2 =>
        match skipWs r2 with
        | '"' :: r3 =>
          let plate := r3.takeWhile (fun c => c ≠ '"')
          match r3.dropWhile (fun c => c ≠ '"') with
          | '"' :: r4 =>
            if plate.isEmpty then none
            else
              match skipWs r4 with
              | ',' :: r5 =>
                match matchLit "\"confidence\"".toList (skipWs r5) with
                | none => none
                | some r6 =>
                  match skipWs r6 with
                  | ':' :: r7 =>
                    let r8 := skipWs r7
                    let conf := r8.takeWhile isDigitDot
                    if conf.isEmpty then none
                    else some ((String.mk plate, String.mk conf), r8.drop conf.length)
                  | _ => none
              | _ => none
          | _ => none
        | _ => none
      | _ => none
  | _ => none

/-- The scan loop of `re.finditer`: try the pattern at the current position,
continue after the match on success, advance one character on failure.  The
fuel starts at the input length, which suffices because a successful match
always consumes the opening brace. -/
def findFragmentsAux : Nat → List Char → List (String × String)
  | 0, _ => []
  | f + 1, l =>
    match matchFragment l with
    | some pcr => pcr.1 :: findFragmentsAux f pcr.2
    | none =>
      match l with
      | [] => []
      | _ :: rest => findFragmentsAux f rest

/-- All non-overlapping matches of the salvage pattern, in scan order. -/
def findFragments (l : List Char) : List (String × String) := findFragmentsAux l.length l

/-- `CONFIDENCE_THRESHOLD = 0.7` (line 33). -/
def CONFIDENCE_THRESHOLD : ℚ := mkRat 7 10

/-- Python `str.upper()` (ASCII range, which is all the plate strings use). -/
def pyUpper (s : String) : String := String.mk (s.toList.map Char.toUpper)

/-- The record built for a salvaged fragment (lines 322-328): placeholder zero
bounding box, default class `car`, and `plateVisible` computed as
`plate.upper() not in ["NONE", "BLUR"]`. -/
def salvageRecord (plate : String) (conf : ℚ) : Json :=
  Json.obj [("plateNumber", Json.str plate),
            ("confidence", Json.num conf),
            ("bbox", Json.arr [Json.num 0, Json.num 0, Json.num 0, Json.num 0]),
            ("class_name", Json.str "car"),
            ("plateVisible", Json.bool (!(pyUpper plate = "NONE" || pyUpper plate = "BLUR")))]

/-- The vehicles salvaged from a malformed response (lines 311-330): each
fragment whose confidence group parses as a float at or above the threshold
becomes a `salvageRecord`; unparseable confidences are skipped. -/
def salvageVehicles (l : List Char) : List Json :=
  (findFragments l).filterMap fun pc =>
    match parsePyFloat pc.2.toList with
    | some c => if CONFIDENCE_THRESHOLD ≤ c then some (salvageRecord pc.1 c) else none
    | none => none

/-- The result returned when both strict parsing and repair failed
(lines 332-339): salvaged vehicles with a partial-parse error, or an empty
list with a failed-to-parse error carrying the original parse failure text. -/
def salvageResult (l : List Char) (parseMsg : String) : Json :=
  if (salvageVehicles l).isEmpty then
    Json.obj [("vehicles", Json.arr []),
              ("error", Json.str ("Failed to parse AI response: " ++ parseMsg))]
  else
    Json.obj [("vehicles", Json.arr (salvageVehicles l)),
              ("error", Json.str ("Partial parse: " ++ parseMsg))]

/-! ## Validation and threshold filtering (lines 341-353) -/

/-- Models the `str()` text of the `TypeError`/`AttributeError` Python raises
when the decoded document or a vehicle entry does not have the expected shape;
the exact message varies and no claim depends on it. -/
def PY_TYPE_ERROR_MSG : String := "unsupported response structure"

/-- The error envelope `{"vehicles": [], "error": msg}` returned by every
failure branch of `analyze_image_with_gemini`. -/
def errorEnvelope (msg : String) : Json :=
  Json.obj [("vehicles", Json.arr []), ("error", Json.str msg)]

/-- The value `vehicle.get('confidence', 0.0)` as compared against the
threshold: `0` when the key is absent, the number itself, booleans as `0`/`1`
(Python booleans are numeric); `none` models the `TypeError` raised when the
value is not comparable to a float, and for a non-dict entry the
`AttributeError` of calling `.get` on it. -/
def vehicleEffConf : Json → Option ℚ
  | Json.obj kvs =>
    match objGet kvs "confidence" with
    | none => some 0
    | some (Json.num q) => some q
    | some (Json.bool b) => some (if b then 1 else 0)
    | some _ => none
  | _ => none

/-- The list comprehension of lines 346-349: keep vehicles whose effective
confidence is at least the threshold; `none` models the exception Python
raises on the first malformed entry. -/
def filterVehicles : List Json → Option (List Json)
  | [] => some []
  | v :: vs =>
    match vehicleEffConf v with
    | none => none
    | some c =>
      match filterVehicles vs with
      | none => none
      | some ws => some (if CONFIDENCE_THRESHOLD ≤ c then v :: ws else ws)

/-- Second half of lines 341-353: read back the (now guaranteed) `vehicles`
entry, filter it by the confidence threshold, and store the filtered list. -/
def finalizeWith (kvs1 : List (String × Json)) : Json :=
  match objGet kvs1 "vehicles" with
  | some (Json.arr vs) =>
    match filterVehicles vs with
    | some fvs => Json.obj (objSet kvs1 "vehicles" (Json.arr fvs))
    | none => errorEnvelope PY_TYPE_ERROR_MSG
  | _ => errorEnvelope PY_TYPE_ERROR_MSG

/-- Lines 341-353 applied to a successfully decoded document: ensure a
`vehicles` key (defaulting to an empty list), filter it by the confidence
threshold, and store the filtered list back; any shape violation raises and is
caught by the enclosing handler, which returns an error envelope. -/
def finalizeResult : Json → Json
  | Json.obj kvs =>
    finalizeWith
      (match objGet kvs "vehicles" with
       | none => objSet kvs "vehicles" (Json.arr [])
       | some _ => kvs)
  | _ => errorEnvelope PY_TYPE_ERROR_MSG

/-- Lines 278-353 on the cleaned and sliced text: strict decode, repair
attempt, regex salvage (both the repair and the salvage scan operate on the
post-cleanup text, which is what `response_text` holds at that point). -/
def interpretCleaned (t : List Char) : Json :=
  match parseJsonE t with
  | Except.ok j => finalizeResult j
  | Except.error msg =>
    match repairAttempt t with
    | some j => finalizeResult j
    | none => salvageResult t msg

/-- The full response interpretation of lines 250-353: cleanup, embedded-object
slice, strict decode, repair attempt, regex salvage. -/
def interpretResponse (raw : String) : Json :=
  interpretCleaned (extractJsonSlice (cleanupResponse raw.toList))

/-! ## The surrounding service (`analyze_image_with_gemini` error handling,
`process_image`, `main`) -/

/-- Outcome of the image-loading step (`load_image_from_base64` /
`load_image_from_file`); `err` carries the message of the underlying exception. -/
inductive LoadResult where
  | ok
  | err (msg : String)

/-- Outcome of the `model.generate_content` call; `err` carries `str(e)` of the
raised exception. -/
inductive ModelResult where
  | reply (text : String)
  | err (msg : String)

/-- The ambient state a single invocation observes: the credential, whether
`genai.configure`/model construction raises, the upstream call outcome, the
image-load outcome, and the current UTC instant rendered by
`datetime.utcnow().isoformat()` (naive, no offset suffix). -/
structure Env where
  apiKey : String
  initError : Option String
  modelResult : ModelResult
  loadResult : LoadResult
  nowIso : String

/-- The quota detection of line 370: `"quota" in error_msg.lower() or "429" in
error_msg`. -/
def quotaLike (msg : String) : Bool :=
  hasSub "quota".toList msg.toLower.toList || hasSub "429".toList msg.toList

/-- `analyze_image_with_gemini` (lines 77-372) as a function of the ambient
state: the `get_gemini_model` key check and initialization failure, the
upstream call with quota detection, and the response interpretation; every
failure is caught and converted into an error envelope. -/
def analyze_image_with_gemini (e : Env) : Json :=
  if e.apiKey = "" then errorEnvelope "GEMINI_API_KEY is not set in environment"
  else
    match e.initError with
    | some m => errorEnvelope ("Failed to initialize Gemini model: " ++ m)
    | none =>
      match e.modelResult with
      | ModelResult.err m =>
        if quotaLike m then
          errorEnvelope "API quota exceeded. Please check your Gemini API plan and billing."
        else errorEnvelope m
      | ModelResult.reply text => interpretResponse text

/-- Python `result['timestamp'] = ts` (total model; `analyze_image_with_gemini`
always returns a dict). -/
def setKey : Json → String → Json → Json
  | Json.obj kvs, k, v => Json.obj (objSet kvs k v)
  | j, _, _ => j

/-- `process_image` (lines 375-422): early return on a missing credential with
an aware-UTC timestamp (`datetime.now(timezone.utc).isoformat()`, which renders
with a `+00:00` offset), image loading with its error envelope, then analysis
with the `Z`-suffixed naive-UTC timestamp added. -/
def process_image (e : Env) (isBase64 : Bool) : Json :=
  if e.apiKey = "" then
    Json.obj [("vehicles", Json.arr []),
              ("error", Json.str "GEMINI_API_KEY is not set in environment"),
              ("timestamp", Json.str (e.nowIso ++ "+00:00"))]
  else
    match e.loadResult with
    | LoadResult.err m =>
      Json.obj [("vehicles", Json.arr []),
                ("error", Json.str ("Failed to load image: Failed to load image from " ++
                  (if isBase64 then "base64: " else "file: ") ++ m)),
                ("timestamp", Json.str (e.nowIso ++ "Z"))]
    | LoadResult.ok =>
      setKey (analyze_image_with_gemini e) "timestamp" (Json.str (e.nowIso ++ "Z"))

/-- The argparse values `main` receives (already-parsed option strings). -/
structure CliArgs where
  image : Option String
  base64 : Option String
  base64File : Option String
  output : Option String

/-- Python truthiness of an optional string (`bool(args.x)`): an absent option
and an empty string are both falsy. -/
def truthy : Option String → Bool
  | none => false
  | some s => s ≠ ""

/-- Everything `main` observes beyond its arguments: whether reading the
`--base64-file` file succeeds, whether opening the `--output` file for writing
succeeds, and the `process_image` ambient state. -/
structure CliWorld where
  args : CliArgs
  base64FileReadable : Bool
  outputWritable : Bool
  env : Env

/-- The check of line 435: no image argument was provided. -/
def argsOmitted (a : CliArgs) : Bool :=
  !truthy a.image && !truthy a.base64 && !truthy a.base64File

/-- The count of line 440: `sum([bool(args.image), bool(args.base64),
bool(args.base64_file)])`. -/
def countProvided (a : CliArgs) : Nat :=
  (if truthy a.image then 1 else 0) + (if truthy a.base64 then 1 else 0)
    + (if truthy a.base64File then 1 else 0)

/-- The output step of lines 460-468: print to stdout, or write to the
`--output` file (an unwritable file raises an uncaught exception, terminating
the interpreter with a nonzero status and emitting nothing). -/
def emitResult (w : CliWorld) (res : Json) : Nat × Option Json :=
  if truthy w.args.output then
    if w.outputWritable then (0, some res) else (1, none)
  else (0, some res)

/-- `main` (lines 425-468): exit code together with the envelope it emitted
(`none` when the process exits before printing or writing a result). -/
def mainRun (w : CliWorld) : Nat × Option Json :=
  if argsOmitted w.args then (1, none)
  else if 1 < countProvided w.args then (1, none)
  else if truthy w.args.image then emitResult w (process_image w.env false)
  else if truthy w.args.base64File then
    if w.base64FileReadable then emitResult w (process_image w.env true) else (1, none)
  else emitResult w (process_image w.env true)

/-- Stated from the claim, for comparison with `mainRun`: the spec says the
exit status is nonzero exactly when the image argument is omitted, more than
one image argument is supplied, or a specified input file cannot be read
(which covers both an unreadable `--image` path and an unreadable
`--base64-file` container). -/
def specNonzeroExit (w : CliWorld) : Prop :=
  argsOmitted w.args = true ∨ 1 < countProvided w.args ∨
  (truthy w.args.image = true ∧ ∃ m, w.env.loadResult = LoadResult.err m) ∨
  (truthy w.args.base64File = true ∧ w.base64FileReadable = false)

/-- Field access on a result envelope (a Python dict subscript). -/
def envGet (j : Json) (k : String) : Option Json :=
  match j with
  | Json.obj kvs => objGet kvs k
  | _ => none

/-- Stated from the claim, for comparison with `extractJsonSlice`: whenever the
text contains both an opening and a closing brace, slice from the first opening
brace to the last closing brace inclusive. -/
def specBraceSlice (l : List Char) : List Char :=
  match pyFindChar '{' l, pyRfindChar '}' l with
  | some s, some e => strSlice l s (e + 1)
  | _, _ => l

/-- The failure-envelope shape: an empty vehicles list together with a
nonempty diagnostic string in the error field. -/
def failEnv (j : Json) : Prop :=
  envGet j "vehicles" = some (Json.arr []) ∧
  ∃ m, envGet j "error" = some (Json.str m) ∧ m ≠ ""

/-- The response text defeats the strict decode, the repair attempt, and the
regex salvage: the case in which the interpreter reports a parse failure with
an empty vehicle list. -/
def parseFullyFailed (raw : String) : Prop :=
  parseJsonOpt (extractJsonSlice (cleanupResponse raw.toList)) = none ∧
  repairAttempt (extractJsonSlice (cleanupResponse raw.toList)) = none ∧
  salvageVehicles (extractJsonSlice (cleanupResponse raw.toList)) = []

/-! ## JSON documents with trailing separators

`TJson` is a JSON value in which each array or object additionally records
whether its rendering carries a trailing comma before the closing delimiter —
the malformation the repair step of lines 281-309 is designed to remove. -/

inductive TJson where
  | null
  | bool (b : Bool)
  | num (q : ℚ)
  | str (s : String)
  | arr (xs : List TJson) (trail : Bool)
  | obj (kvs : List (String × TJson)) (trail : Bool)

mutual

/-- Render a `TJson` document (minimal spacing), inserting a trailing comma
before the closing delimiter of each container whose flag is set. -/
def renderT : TJson → List Char
  | TJson.null => ['n', 'u', 'l', 'l']
  | TJson.bool true => ['t', 'r', 'u', 'e']
  | TJson.bool false => ['f', 'a', 'l', 's', 'e']
  | TJson.num q => natChars q.num.toNat
  | TJson.str s => '"' :: (s.toList ++ ['"'])
  | TJson.arr xs t => '[' :: (renderItems xs ++ (if t then [','] else []) ++ [']'])
  | TJson.obj kvs t => '{' :: (renderMembers kvs ++ (if t then [','] else []) ++ ['}'])

/-- Comma-separated rendering of array items. -/
def renderItems : List TJson → List Char
  | [] => []
  | [x] => renderT x
  | x :: y :: rest => renderT x ++ ',' :: renderItems (y :: rest)

/-- Comma-separated rendering of object members (`"key":value`). -/
def renderMembers : List (String × TJson) → List Char
  | [] => []
  | [kv] => '"' :: (kv.1.toList ++ '"' :: ':' :: renderT kv.2)
  | kv :: kv2 :: rest =>
    ('"' :: (kv.1.toList ++ '"' :: ':' :: renderT kv.2)) ++ ',' :: renderMembers (kv2 :: rest)

end

mutual

/-- The JSON value a `TJson` document denotes (forget the trailing-comma flags). -/
def eraseT : TJson → Json
  | TJson.null => Json.null
  | TJson.bool b => Json.bool b
  | TJson.num q => Json.num q
  | TJson.str s => Json.str s
  | TJson.arr xs _ => Json.arr (eraseTList xs)
  | TJson.obj kvs _ => Json.obj (eraseTKvs kvs)

/-- Pointwise `eraseT` on array items. -/
def eraseTList : List TJson → List Json
  | [] => []
  | x :: rest => eraseT x :: eraseTList rest

/-- Pointwise `eraseT` on object members. -/
def eraseTKvs : List (String × TJson) → List (String × Json)
  | [] => []
  | kv :: rest => (kv.1, eraseT kv.2) :: eraseTKvs rest

end

mutual

/-- Clear the trailing-comma flags that `re.sub(r',\s*CLOSE' ...)` removes:
for `CLOSE = }` the object flags, for `CLOSE = ]` the array flags. -/
def tDropClose (close : Char) : TJson → TJson
  | TJson.null => TJson.null
  | TJson.bool b => TJson.bool b
  | TJson.num q => TJson.num q
  | TJson.str s => TJson.str s
  | TJson.arr xs t => TJson.arr (tDropCloseList close xs) (if close = ']' then false else t)
  | TJson.obj kvs t => TJson.obj (tDropCloseKvs close kvs) (if close = '}' then false else t)

/-- Pointwise `tDropClose` on array items. -/
def tDropCloseList (close : Char) : List TJson → List TJson
  | [] => []
  | x :: rest => tDropClose close x :: tDropCloseList close rest

/-- Pointwise `tDropClose` on object members. -/
def tDropCloseKvs (close : Char) : List (String × TJson) → List (String × TJson)
  | [] => []
  | kv :: rest => (kv.1, tDropClose close kv.2) :: tDropCloseKvs close rest

end

/-- Characters allowed in the strings of a sane document: nothing that can be
mistaken for JSON punctuation by the textual repair (no quotes, backslashes,
braces, brackets or commas). -/
def okChar (c : Char) : Bool :=
  !(c = '"' || c = '\\' || c = '{' || c = '}' || c = '[' || c = ']' || c = ',')

/-- No duplicate keys. -/
def nodupKeys : List String → Bool
  | [] => true
  | k :: rest => !rest.contains k && nodupKeys rest

mutual

/-- Sanity of a document for the repair theorem: numbers are naturals, strings
and keys avoid JSON punctuation, and object keys are distinct. -/
def saneT : TJson → Bool
  | TJson.null => true
  | TJson.bool _ => true
  | TJson.num q => q.den == 1 && decide (0 ≤ q.num)
  | TJson.str s => s.toList.all okChar
  | TJson.arr xs _ => saneTList xs
  | TJson.obj kvs _ => nodupKeys (kvs.map Prod.fst) && saneTKvs kvs

/-- Pointwise `saneT` on array items. -/
def saneTList : List TJson → Bool
  | [] => true
  | x :: rest => saneT x && saneTList rest

/-- Pointwise `saneT` on object members (keys also checked). -/
def saneTKvs : List (String × TJson) → Bool
  | [] => true
  | kv :: rest => kv.1.toList.all okChar && saneT kv.2 && saneTKvs rest

end


/-! ## Auxiliary structure on `TJson` documents -/

/-- Safe continuations after a rendered number: the remainder must not begin
with a digit or a decimal point. -/
def restSafe : List Char → Bool
  | [] => true
  | c :: _ => !(c.isDigit || c = '.')


/-! Fuel needed by the parser on a rendered document (see the roundtrip lemmas). -/

mutual

def sizeV : TJson → Nat
  | TJson.null => 1
  | TJson.bool _ => 1
  | TJson.num _ => 1
  | TJson.str _ => 1
  | TJson.arr xs _ => 1 + sizeItems xs
  | TJson.obj kvs _ => 1 + sizeKvs kvs

def sizeItems : List TJson → Nat
  | [] => 0
  | x :: rest => 1 + sizeV x + sizeItems rest

def sizeKvs : List (String × TJson) → Nat
  | [] => 0
  | kv :: rest => 1 + sizeV kv.2 + sizeKvs rest

end

/-! No trailing-comma flag is set anywhere in the document. -/

mutual

def noTrail : TJson → Bool
  | TJson.null => true
  | TJson.bool _ => true
  | TJson.num _ => true
  | TJson.str _ => true
  | TJson.arr xs t => !t && noTrailList xs
  | TJson.obj kvs t => !t && noTrailKvs kvs

def noTrailList : List TJson → Bool
  | [] => true
  | x :: rest => noTrail x && noTrailList rest

def noTrailKvs : List (String × TJson) → Bool
  | [] => true
  | kv :: rest => noTrail kv.2 && noTrailKvs rest

end

/-- Closing-minus-opening curly-brace count (the quantity tracked by the
backward scan of lines 294-303). -/
def closeBal (l : List Char) : Int := (l.count '}' : Int) - (l.count '{' : Int)


/-- The document is an object at top level. -/
def isObjT : TJson → Bool
  | TJson.obj _ _ => true
  | _ => false


/-! ## Association-list lemmas -/

theorem objGet_objSet_self (kvs : List (String × Json)) (k : String) (v : Json) :
    objGet (objSet kvs k v) k = some v := by
  induction kvs with
  | nil => simp [objSet, objGet]
  | cons kv rest ih =>
    obtain ⟨k2, w⟩ := kv
    by_cases h : k2 = k
    · simp [objSet, objGet, h]
    · simp [objSet, objGet, h, ih]

theorem objGet_objSet_ne (kvs : List (String × Json)) (k k2 : String) (v : Json)
    (h : k ≠ k2) : objGet (objSet kvs k v) k2 = objGet kvs k2 := by
  induction kvs with
  | nil => simp [objSet, objGet, h]
  | cons kv rest ih =>
    obtain ⟨k3, w⟩ := kv
    by_cases h3 : k3 = k
    · subst h3
      simp [objSet, objGet, h]
    · simp [objSet, objGet, h3, ih]

/-! ## Envelope-shape lemmas: every branch of the analysis returns a dict with
a `vehicles` list -/

theorem filterVehicles_eq_filter (vs out : List Json) (h : filterVehicles vs = some out) :
    out = vs.filter (fun v =>
      match vehicleEffConf v with
      | some c => decide (CONFIDENCE_THRESHOLD ≤ c)
      | none => false) := by
  induction vs generalizing out with
  | nil =>
    simp only [filterVehicles, Option.some.injEq] at h
    subst h
    simp
  | cons v rest ih =>
    simp only [filterVehicles] at h
    revert h
    cases hc : vehicleEffConf v with
    | none => intro h; exact absurd h (by simp)
    | some c =>
      cases hrest : filterVehicles rest with
      | none => intro h; exact absurd h (by simp)
      | some ws =>
        intro h
        simp only [Option.some.injEq] at h
        subst h
        rw [List.filter_cons]
        by_cases hth : CONFIDENCE_THRESHOLD ≤ c
        · simp [hth, hc, ih ws hrest]
        · simp [hth, hc, ih ws hrest]

theorem salvageResult_obj (l : List Char) (msg : String) :
    ∃ kvs, salvageResult l msg = Json.obj kvs ∧
      ∃ vs, objGet kvs "vehicles" = some (Json.arr vs) := by
  unfold salvageResult
  by_cases h : (salvageVehicles l).isEmpty
  · rw [if_pos h]
    exact ⟨_, rfl, [], by simp [objGet]⟩
  · rw [if_neg h]
    exact ⟨_, rfl, salvageVehicles l, by simp [objGet]⟩

theorem errorEnvelope_obj (msg : String) :
    ∃ kvs, errorEnvelope msg = Json.obj kvs ∧
      ∃ vs, objGet kvs "vehicles" = some (Json.arr vs) :=
  ⟨_, rfl, [], by simp [objGet]⟩

theorem finalizeWith_obj (kvs1 : List (String × Json)) :
    ∃ kvs, finalizeWith kvs1 = Json.obj kvs ∧
      ∃ vs, objGet kvs "vehicles" = some (Json.arr vs) := by
  unfold finalizeWith
  split
  · rename_i vs heq
    split
    · rename_i fvs hfv
      exact ⟨_, rfl, fvs, objGet_objSet_self _ _ _⟩
    · exact ⟨_, rfl, [], by simp [errorEnvelope, objGet]⟩
  · exact ⟨_, rfl, [], by simp [errorEnvelope, objGet]⟩

theorem finalizeResult_obj (j : Json) :
    ∃ kvs, finalizeResult j = Json.obj kvs ∧
      ∃ vs, objGet kvs "vehicles" = some (Json.arr vs) := by
  cases j with
  | obj kvs0 => exact finalizeWith_obj _
  | null => exact ⟨_, rfl, [], by simp [objGet]⟩
  | bool b => exact ⟨_, rfl, [], by simp [objGet]⟩
  | num q => exact ⟨_, rfl, [], by simp [objGet]⟩
  | str s => exact ⟨_, rfl, [], by simp [objGet]⟩
  | arr xs => exact ⟨_, rfl, [], by simp [objGet]⟩

theorem interpretCleaned_obj (t : List Char) :
    ∃ kvs, interpretCleaned t = Json.obj kvs ∧
      ∃ vs, objGet kvs "vehicles" = some (Json.arr vs) := by
  unfold interpretCleaned
  split
  · exact finalizeResult_obj _
  · split
    · exact finalizeResult_obj _
    · exact salvageResult_obj _ _

theorem interpretResponse_obj (raw : String) :
    ∃ kvs, interpretResponse raw = Json.obj kvs ∧
      ∃ vs, objGet kvs "vehicles" = some (Json.arr vs) := by
  unfold interpretResponse
  exact interpretCleaned_obj _

theorem analyze_obj (e : Env) :
    ∃ kvs, analyze_image_with_gemini e = Json.obj kvs ∧
      ∃ vs, objGet kvs "vehicles" = some (Json.arr vs) := by
  unfold analyze_image_with_gemini
  split
  · exact errorEnvelope_obj _
  · split
    · exact errorEnvelope_obj _
    · split
      · split
        · exact errorEnvelope_obj _
        · exact errorEnvelope_obj _
      · exact interpretResponse_obj _

theorem analyze_vehicles (e : Env) :
    ∃ vs, envGet (analyze_image_with_gemini e) "vehicles" = some (Json.arr vs) := by
  obtain ⟨kvs, hkvs, vs, hvs⟩ := analyze_obj e
  exact ⟨vs, by rw [hkvs]; exact hvs⟩

theorem process_image_timestamp (e : Env) (b : Bool) :
    (e.apiKey = "" →
      envGet (process_image e b) "timestamp" = some (Json.str (e.nowIso ++ "+00:00"))) ∧
    (e.apiKey ≠ "" →
      envGet (process_image e b) "timestamp" = some (Json.str (e.nowIso ++ "Z"))) := by
  constructor
  · intro hk
    unfold process_image
    rw [if_pos hk]
    rfl
  · intro hk
    unfold process_image
    rw [if_neg hk]
    cases hl : e.loadResult with
    | err m => rfl
    | ok =>
      obtain ⟨kvs, hkvs, _⟩ := analyze_obj e
      rw [hkvs]
      simp only [setKey, envGet]
      exact objGet_objSet_self _ _ _

theorem process_image_vehicles (e : Env) (b : Bool) :
    ∃ vs, envGet (process_image e b) "vehicles" = some (Json.arr vs) := by
  unfold process_image
  split
  · exact ⟨[], rfl⟩
  · cases hl : e.loadResult with
    | err m => exact ⟨[], rfl⟩
    | ok =>
      obtain ⟨kvs, hkvs, vs, hvs⟩ := analyze_obj e
      rw [hkvs]
      refine ⟨vs, ?_⟩
      simp only [setKey, envGet]
      rw [objGet_objSet_ne _ _ _ _ (by decide)]
      exact hvs

/-! ## Claim C10 -/

/-- C10: a candidate record that lacks a confidence field entirely is treated
by the unconditional threshold filter of `analyze_image_with_gemini` as having
confidence 0.0, and is therefore always dropped from the returned vehicle
list, regardless of the record's other fields. -/
theorem missing_confidence_always_dropped (kvs : List (String × Json))
    (vs out : List Json) (hnc : objGet kvs "confidence" = none)
    (hf : filterVehicles vs = some out) :
    vehicleEffConf (Json.obj kvs) = some 0 ∧ Json.obj kvs ∉ out := by
  have heff : vehicleEffConf (Json.obj kvs) = some 0 := by
    simp only [vehicleEffConf, hnc]
  refine ⟨heff, ?_⟩
  rw [filterVehicles_eq_filter vs out hf]
  intro hmem
  rw [List.mem_filter] at hmem
  have hp := hmem.2
  simp only [heff] at hp
  have : ¬ CONFIDENCE_THRESHOLD ≤ (0 : ℚ) := by
    rw [CONFIDENCE_THRESHOLD]
    norm_num [Rat.mkRat_eq_div]
  simp [this] at hp

/-- Instantiation of `missing_confidence_always_dropped` at a record carrying
only a plate number. -/
theorem missing_confidence_always_dropped_witness :
    vehicleEffConf (Json.obj [("plateNumber", Json.str "XYZ-999")]) = some 0 ∧
    Json.obj [("plateNumber", Json.str "XYZ-999")] ∉ ([] : List Json) :=
  missing_confidence_always_dropped [("plateNumber", Json.str "XYZ-999")]
    [Json.obj [("plateNumber", Json.str "XYZ-999")]] [] rfl rfl

/-! ## Claim C3 -/

/-- C3: the confidence-threshold filter of `analyze_image_with_gemini` keeps
exactly the candidate records whose effective confidence is at least the 0.7
threshold (membership in the output is equivalent to membership in the input
together with a confidence at or above the threshold, so every record below
the threshold is excluded regardless of its other fields), and the output is a
sublist of the input, preserving the relative order of the retained records. -/
theorem threshold_filter_exact (vs out : List Json) (h : filterVehicles vs = some out) :
    (∀ v, v ∈ out ↔
      v ∈ vs ∧ ∃ c, vehicleEffConf v = some c ∧ CONFIDENCE_THRESHOLD ≤ c) ∧
    out.Sublist vs := by
  rw [filterVehicles_eq_filter vs out h]
  constructor
  · intro v
    rw [List.mem_filter]
    constructor
    · rintro ⟨hm, hp⟩
      refine ⟨hm, ?_⟩
      revert hp
      cases hc : vehicleEffConf v with
      | none => simp
      | some c =>
        intro hp
        simp only at hp
        exact ⟨c, rfl, by simpa using hp⟩
    · rintro ⟨hm, c, hc, hth⟩
      refine ⟨hm, ?_⟩
      simp [hc, hth]
  · exact List.filter_sublist _

/-- Instantiation of `threshold_filter_exact` on a two-record list with
confidences 0.8 and 0.5: the 0.8 record is kept in order, the 0.5 record is
dropped. -/
theorem threshold_filter_exact_witness :
    ([Json.obj [("plateNumber", Json.str "AAA-111"), ("confidence", Json.num (mkRat 4 5))]] :
      List Json).Sublist
      [Json.obj [("plateNumber", Json.str "AAA-111"), ("confidence", Json.num (mkRat 4 5))],
       Json.obj [("plateNumber", Json.str "BBB-222"), ("confidence", Json.num (mkRat 1 2))]] :=
  (threshold_filter_exact
    [Json.obj [("plateNumber", Json.str "AAA-111"), ("confidence", Json.num (mkRat 4 5))],
     Json.obj [("plateNumber", Json.str "BBB-222"), ("confidence", Json.num (mkRat 1 2))]]
    [Json.obj [("plateNumber", Json.str "AAA-111"), ("confidence", Json.num (mkRat 4 5))]]
    rfl).2

/-! ## Claim C1 -/

/-- An ambient state whose upstream reply defeats the strict decode and the
repair attempt but contains one salvageable fragment whose plate text is the
sentinel `BLUR` with confidence 0.9. -/
def blurEnv : Env :=
  ⟨"key", none,
   ModelResult.reply "xx \x7b\"plateNumber\": \"BLUR\", \"confidence\": 0.9",
   LoadResult.ok, "2024-01-01T00:00:00"⟩

/-- C1 (code bug): on the regex-salvage path, a record whose `plateNumber` is
the sentinel `BLUR` is returned with `plateVisible = false`, although the
claimed invariant (and the output contract stated in the prompt inside the
code, lines 200-205) requires `plateVisible = true` when the plate text is
`BLUR`.  The salvage construction at line 327 computes
`plate.upper() not in ["NONE", "BLUR"]`, which is false for `BLUR`. -/
theorem blur_salvage_record_marked_invisible :
    envGet (analyze_image_with_gemini blurEnv) "vehicles" =
      some (Json.arr [salvageRecord "BLUR" (mkRat 9 10)]) ∧
    envGet (salvageRecord "BLUR" (mkRat 9 10)) "plateNumber" = some (Json.str "BLUR") ∧
    envGet (salvageRecord "BLUR" (mkRat 9 10)) "plateVisible" = some (Json.bool false) :=
  ⟨rfl, rfl, rfl⟩

/-! ## Claim C4 -/

/-- C4 (counterexample): on the missing-credential path, the timestamp of the
envelope returned by `process_image` is rendered by
`datetime.now(timezone.utc).isoformat()`, which carries a `+00:00` offset
suffix and is not suffixed with `Z` as claimed. -/
theorem missing_key_timestamp_not_z :
    envGet (process_image ⟨"", none, ModelResult.reply "", LoadResult.ok,
        "2024-01-01T00:00:00"⟩ true) "timestamp" =
      some (Json.str "2024-01-01T00:00:00+00:00") ∧
    (['Z'].isSuffixOf "2024-01-01T00:00:00+00:00".toList) = false :=
  ⟨rfl, rfl⟩

/-- C4 (amended): every envelope returned by `process_image` carries a
current-UTC timestamp; on every path other than the missing-credential early
return it is the naive UTC ISO-8601 rendering suffixed with `"Z"`, while on
the missing-credential path it is the aware UTC ISO-8601 rendering, which ends
in the `"+00:00"` offset instead of `"Z"`. -/
theorem timestamp_suffix_by_path (e : Env) (b : Bool) :
    (e.apiKey ≠ "" →
      envGet (process_image e b) "timestamp" = some (Json.str (e.nowIso ++ "Z"))) ∧
    (e.apiKey = "" →
      envGet (process_image e b) "timestamp" = some (Json.str (e.nowIso ++ "+00:00"))) :=
  ⟨(process_image_timestamp e b).2, (process_image_timestamp e b).1⟩

/-- Instantiation of `timestamp_suffix_by_path` with a present credential on a
successful run. -/
theorem timestamp_suffix_by_path_witness :
    envGet (process_image ⟨"key", none, ModelResult.reply "gibberish", LoadResult.ok,
        "2024-01-01T00:00:00"⟩ true) "timestamp" =
      some (Json.str ("2024-01-01T00:00:00" ++ "Z")) :=
  (timestamp_suffix_by_path ⟨"key", none, ModelResult.reply "gibberish", LoadResult.ok,
      "2024-01-01T00:00:00"⟩ true).1 (by simp)

/-! ## Claim C8 -/

/-- C8: when strict decoding and repair have both failed, the regex salvage
builds, for each fragment matching a plate-text field immediately followed by a
confidence field, a record with the zero bounding box and default class `car`,
accepting it exactly when the confidence group parses as a float at or above
the 0.7 threshold; when at least one record is salvaged the result carries the
salvaged records with a partial-parse error message, and when none is salvaged
it carries an empty vehicle list with a failed-to-parse error message that has
the original parse-failure reason as a suffix. -/
theorem salvage_step_characterization (t : List Char) (err : String) :
    (∀ v ∈ salvageVehicles t, ∃ p cs c,
        (p, cs) ∈ findFragments t ∧ parsePyFloat cs.toList = some c ∧
        CONFIDENCE_THRESHOLD ≤ c ∧ v = salvageRecord p c ∧
        envGet v "bbox" =
          some (Json.arr [Json.num 0, Json.num 0, Json.num 0, Json.num 0]) ∧
        envGet v "class_name" = some (Json.str "car")) ∧
    (∀ p cs, (p, cs) ∈ findFragments t → ∀ c, parsePyFloat cs.toList = some c →
        CONFIDENCE_THRESHOLD ≤ c → salvageRecord p c ∈ salvageVehicles t) ∧
    (salvageVehicles t ≠ [] →
      salvageResult t err =
        Json.obj [("vehicles", Json.arr (salvageVehicles t)),
                  ("error", Json.str ("Partial parse: " ++ err))]) ∧
    (salvageVehicles t = [] →
      salvageResult t err =
        Json.obj [("vehicles", Json.arr []),
                  ("error", Json.str ("Failed to parse AI response: " ++ err))] ∧
      err.toList <:+ ("Failed to parse AI response: " ++ err).toList) := by
  refine ⟨?_, ?_, ?_, ?_⟩
  · intro v hv
    unfold salvageVehicles at hv
    rw [List.mem_filterMap] at hv
    obtain ⟨pc, hpc, hf⟩ := hv
    revert hf
    cases hpf : parsePyFloat pc.2.toList with
    | none => intro hf; exact absurd hf (by simp)
    | some c =>
      simp only
      by_cases hth : CONFIDENCE_THRESHOLD ≤ c
      · rw [if_pos hth]
        intro hf
        injection hf with hf
        exact ⟨pc.1, pc.2, c, by simpa using hpc, hpf, hth, hf.symm,
          by rw [← hf]; rfl, by rw [← hf]; rfl⟩
      · rw [if_neg hth]
        intro hf
        exact absurd hf (by simp)
  · intro p cs hpc c hc hth
    unfold salvageVehicles
    rw [List.mem_filterMap]
    refine ⟨(p, cs), hpc, ?_⟩
    simp only [hc]
    rw [if_pos hth]
  · intro hne
    unfold salvageResult
    rw [if_neg (by simpa using hne)]
  · intro he
    constructor
    · unfold salvageResult
      rw [if_pos (by simpa using he)]
    · show err.toList <:+ ("Failed to parse AI response: " ++ err).toList
      have : ("Failed to parse AI response: " ++ err).toList =
          "Failed to parse AI response: ".toList ++ err.toList := by
        simp [String.toList, String.data_append]
      rw [this]
      exact List.suffix_append _ _

/-- Instantiation of `salvage_step_characterization` on a malformed text with
one salvageable fragment at confidence 0.8. -/
theorem salvage_step_characterization_witness :
    salvageResult "\x7b\"plateNumber\": \"AB 123\", \"confidence\": 0.8".toList "boom" =
      Json.obj [("vehicles", Json.arr
          (salvageVehicles "\x7b\"plateNumber\": \"AB 123\", \"confidence\": 0.8".toList)),
        ("error", Json.str ("Partial parse: " ++ "boom"))] :=
  (salvage_step_characterization
    "\x7b\"plateNumber\": \"AB 123\", \"confidence\": 0.8".toList "boom").2.2.1
    (by rw [show salvageVehicles "\x7b\"plateNumber\": \"AB 123\", \"confidence\": 0.8".toList =
        [salvageRecord "AB 123" (mkRat 4 5)] from rfl]; simp)

/-! ## Claim C2 -/

theorem append_ne_empty_left (s t : String) (h : s ≠ "") : s ++ t ≠ "" := by
  intro he
  apply h
  have hd : s.data ++ t.data = ([] : List Char) := by
    have h2 := congrArg String.data he
    rwa [String.data_append] at h2
  have hs : s.data = [] := (List.append_eq_nil.mp hd).1
  cases s with
  | mk d =>
    simp only at hs
    rw [hs]

theorem failEnv_errorEnvelope (msg : String) (h : msg ≠ "") : failEnv (errorEnvelope msg) :=
  ⟨rfl, msg, rfl, h⟩

theorem failEnv_setKey (j v : Json) (hobj : ∃ kvs, j = Json.obj kvs) (hf : failEnv j) :
    failEnv (setKey j "timestamp" v) := by
  obtain ⟨kvs, hkvs⟩ := hobj
  subst hkvs
  obtain ⟨hveh, m, herr, hm⟩ := hf
  refine ⟨?_, m, ?_, hm⟩
  · simp only [setKey, envGet]
    rw [objGet_objSet_ne _ _ _ _ (by decide)]
    exact hveh
  · simp only [setKey, envGet]
    rw [objGet_objSet_ne _ _ _ _ (by decide)]
    exact herr

theorem analyze_fail_parse (e : Env) (raw : String) (hi : e.initError = none)
    (hm : e.modelResult = ModelResult.reply raw) (hk : e.apiKey ≠ "")
    (hp : parseFullyFailed raw) : failEnv (analyze_image_with_gemini e) := by
  unfold analyze_image_with_gemini
  rw [if_neg hk, hi, hm]
  simp only
  unfold interpretResponse interpretCleaned
  obtain ⟨hp1, hp2, hp3⟩ := hp
  rw [show parseJsonE (extractJsonSlice (cleanupResponse raw.toList)) =
      Except.error JSON_DECODE_MSG by unfold parseJsonE; rw [hp1]]
  simp only
  rw [hp2]
  simp only
  unfold salvageResult
  rw [if_pos (by rw [hp3]; rfl)]
  refine ⟨rfl, "Failed to parse AI response: " ++ JSON_DECODE_MSG, rfl, ?_⟩
  exact append_ne_empty_left _ _ (by decide)

/-- C2: `process_image` never propagates an exception: for every ambient state
and input kind it returns an envelope with a vehicles list and a timestamp;
and on every total-failure mode — missing credential, image-decode failure,
model-initialization failure, upstream error (with a nonempty exception text),
and unrecoverable parse failure — the vehicles list is empty and the error
field carries a nonempty diagnostic string. -/
theorem process_image_total_envelope (e : Env) (b : Bool) :
    ((∃ vs, envGet (process_image e b) "vehicles" = some (Json.arr vs)) ∧
     (∃ ts, envGet (process_image e b) "timestamp" = some (Json.str ts))) ∧
    (e.apiKey = "" → failEnv (process_image e b)) ∧
    (∀ m, e.loadResult = LoadResult.err m → failEnv (process_image e b)) ∧
    (∀ m, e.apiKey ≠ "" → e.loadResult = LoadResult.ok → e.initError = some m →
      failEnv (process_image e b)) ∧
    (∀ m, e.apiKey ≠ "" → e.loadResult = LoadResult.ok → e.initError = none →
      e.modelResult = ModelResult.err m → m ≠ "" → failEnv (process_image e b)) ∧
    (∀ raw, e.apiKey ≠ "" → e.loadResult = LoadResult.ok → e.initError = none →
      e.modelResult = ModelResult.reply raw → parseFullyFailed raw →
      failEnv (process_image e b)) := by
  refine ⟨⟨process_image_vehicles e b, ?_⟩, ?_, ?_, ?_, ?_, ?_⟩
  · by_cases hk : e.apiKey = ""
    · exact ⟨_, (process_image_timestamp e b).1 hk⟩
    · exact ⟨_, (process_image_timestamp e b).2 hk⟩
  · intro hk
    unfold process_image
    rw [if_pos hk]
    exact ⟨rfl, _, rfl, by decide⟩
  · intro m hl
    by_cases hk : e.apiKey = ""
    · unfold process_image
      rw [if_pos hk]
      exact ⟨rfl, _, rfl, by decide⟩
    · unfold process_image
      rw [if_neg hk, hl]
      refine ⟨rfl, "Failed to load image: Failed to load image from " ++
        (if b then "base64: " else "file: ") ++ m, rfl, ?_⟩
      exact append_ne_empty_left _ _ (append_ne_empty_left _ _ (by decide))
  · intro m hk hl hi
    unfold process_image
    rw [if_neg hk, hl]
    apply failEnv_setKey _ _ ⟨_, (analyze_obj e).choose_spec.1⟩
    · unfold analyze_image_with_gemini
      rw [if_neg hk, hi]
      exact failEnv_errorEnvelope _ (append_ne_empty_left _ _ (by decide))
  · intro m hk hl hi hme hm
    unfold process_image
    rw [if_neg hk, hl]
    apply failEnv_setKey _ _ ⟨_, (analyze_obj e).choose_spec.1⟩
    · unfold analyze_image_with_gemini
      rw [if_neg hk, hi, hme]
      simp only
      by_cases hq : quotaLike m
      · rw [if_pos hq]
        exact failEnv_errorEnvelope _ (by decide)
      · rw [if_neg hq]
        exact failEnv_errorEnvelope _ hm
  · intro raw hk hl hi hme hp
    unfold process_image
    rw [if_neg hk, hl]
    apply failEnv_setKey _ _ ⟨_, (analyze_obj e).choose_spec.1⟩
    · exact analyze_fail_parse e raw hi hme hk hp

/-- Instantiation of `process_image_total_envelope` on the missing-credential
path. -/
theorem process_image_total_envelope_witness :
    failEnv (process_image ⟨"", none, ModelResult.reply "", LoadResult.ok,
      "2024-01-01T00:00:00"⟩ true) :=
  (process_image_total_envelope ⟨"", none, ModelResult.reply "", LoadResult.ok,
    "2024-01-01T00:00:00"⟩ true).2.1 rfl

/-! ## Claim C9 -/

/-- C9 (counterexample): with `--image` pointing at an unreadable file, the
process exits 0 and emits an error-carrying envelope, although the claim
requires a nonzero exit whenever a specified input file cannot be read. -/
theorem unreadable_image_exits_zero :
    specNonzeroExit ⟨⟨some "missing.jpg", none, none, none⟩, true, true,
      ⟨"key", none, ModelResult.reply "", LoadResult.err "No such file or directory",
       "2024-01-01T00:00:00"⟩⟩ ∧
    (mainRun ⟨⟨some "missing.jpg", none, none, none⟩, true, true,
      ⟨"key", none, ModelResult.reply "", LoadResult.err "No such file or directory",
       "2024-01-01T00:00:00"⟩⟩).1 = 0 :=
  ⟨Or.inr (Or.inr (Or.inl ⟨rfl, "No such file or directory", rfl⟩)), rfl⟩

/-- C9 (amended): `main` exits nonzero exactly when the image argument is
omitted, more than one image argument is supplied, the `--base64-file`
container cannot be read, or the specified `--output` file cannot be opened
for writing; in every other case — including an unreadable `--image` path,
which yields an error-carrying envelope — it exits zero after emitting a
best-effort result envelope. -/
theorem cli_exit_code_characterization (w : CliWorld) :
    ((mainRun w).1 ≠ 0 ↔
      (argsOmitted w.args = true ∨ 1 < countProvided w.args ∨
       (argsOmitted w.args = false ∧ ¬ 1 < countProvided w.args ∧
        truthy w.args.image = false ∧ truthy w.args.base64File = true ∧
        w.base64FileReadable = false) ∨
       (argsOmitted w.args = false ∧ ¬ 1 < countProvided w.args ∧
        (truthy w.args.image = true ∨ truthy w.args.base64File = false ∨
         w.base64FileReadable = true) ∧
        truthy w.args.output = true ∧ w.outputWritable = false))) ∧
    ((mainRun w).1 = 0 → ∃ j, (mainRun w).2 = some j) := by
  constructor
  · unfold mainRun emitResult
    split_ifs with h1 h2 h3 h4 h5 h6 h7 h8 h9 h10 h11 _h12 <;> simp_all
  · unfold mainRun emitResult
    split_ifs <;> simp_all

/-- Instantiation of `cli_exit_code_characterization`: two conflicting image
arguments exit nonzero. -/
theorem cli_exit_code_characterization_witness :
    (mainRun ⟨⟨some "a.jpg", some "payload", none, none⟩, true, true,
      ⟨"key", none, ModelResult.reply "", LoadResult.ok, "2024-01-01T00:00:00"⟩⟩).1 ≠ 0 :=
  (cli_exit_code_characterization ⟨⟨some "a.jpg", some "payload", none, none⟩, true, true,
    ⟨"key", none, ModelResult.reply "", LoadResult.ok, "2024-01-01T00:00:00"⟩⟩).1.mpr
    (Or.inr (Or.inl (by decide)))

/-! ## Claim C6 -/

theorem pyFindChar_cons_self (c : Char) (l : List Char) :
    pyFindChar c (c :: l) = some 0 := by
  simp [pyFindChar]

theorem pyFindChar_append_some {c : Char} {l1 l2 : List Char} {i : Nat}
    (hnone : c ∉ l1) (h2 : pyFindChar c l2 = some i) :
    pyFindChar c (l1 ++ l2) = some (l1.length + i) := by
  induction l1 with
  | nil => simpa using h2
  | cons x rest ih =>
    have hx : x ≠ c := by
      intro he
      exact hnone (by simp [he])
    have hrest : c ∉ rest := fun hm => hnone (List.mem_cons_of_mem _ hm)
    rw [List.cons_append]
    simp only [pyFindChar, hx, if_false, ih hrest]
    simp only [Option.map, List.length_cons]
    congr 1
    omega

theorem pyFindChar_some_mem {c : Char} {l : List Char} {i : Nat}
    (h : pyFindChar c l = some i) : c ∈ l := by
  induction l generalizing i with
  | nil => simp [pyFindChar] at h
  | cons x rest ih =>
    simp only [pyFindChar] at h
    split at h
    · rename_i hx; simp [hx]
    · revert h
      cases hr : pyFindChar c rest with
      | none => intro h; exact absurd h (by simp)
      | some j => intro h; exact List.mem_cons_of_mem _ (ih hr)

theorem pyRfindChar_eq_none {c : Char} {l : List Char} (h : c ∉ l) :
    pyRfindChar c l = none := by
  induction l with
  | nil => rfl
  | cons x rest ih =>
    have hx : x ≠ c := by intro he; exact h (by simp [he])
    have hrest : c ∉ rest := fun hm => h (List.mem_cons_of_mem _ hm)
    simp [pyRfindChar, ih hrest, hx]

theorem pyRfindChar_some_mem {c : Char} {l : List Char} {i : Nat}
    (h : pyRfindChar c l = some i) : c ∈ l := by
  induction l generalizing i with
  | nil => simp [pyRfindChar] at h
  | cons x rest ih =>
    simp only [pyRfindChar] at h
    revert h
    cases hr : pyRfindChar c rest with
    | some j => intro h; exact List.mem_cons_of_mem _ (ih hr)
    | none =>
      simp only
      split
      · rename_i hx; intro h; simp [hx]
      · intro h; exact absurd h (by simp)

theorem pyRfindChar_append (c : Char) (l1 l2 : List Char) :
    pyRfindChar c (l1 ++ l2) =
      match pyRfindChar c l2 with
      | some i => some (l1.length + i)
      | none => pyRfindChar c l1 := by
  induction l1 with
  | nil =>
    cases h2 : pyRfindChar c l2 with
    | some i => simp [h2]
    | none => simp [h2, pyRfindChar]
  | cons x rest ih =>
    rw [List.cons_append]
    simp only [pyRfindChar]
    rw [ih]
    cases h2 : pyRfindChar c l2 with
    | some i =>
      simp only [List.length_cons, Option.some.injEq]
      omega
    | none => rfl


/-- C6 (amended): whenever the cleaned text contains both braces and the first
opening brace comes at or before the last closing brace, the interpreter
slices from the first opening brace to the last closing brace inclusive,
agreeing with the claimed extraction `specBraceSlice`; in particular, for any
text consisting of one well-formed object (brace-delimited) surrounded by
leading prose without opening braces and trailing prose without closing
braces, extraction yields that object unchanged.  (When the only opening brace
comes after the last closing brace, the guard `start_idx < end_idx` leaves the
text unchanged instead — see the counterexample.) -/
theorem brace_slice_extraction :
    (∀ (l : List Char) (s e : Nat), pyFindChar '{' l = some s →
      pyRfindChar '}' l = some e → s ≤ e →
      extractJsonSlice l = strSlice l s (e + 1) ∧ specBraceSlice l = strSlice l s (e + 1)) ∧
    (∀ p1 mid p2 : List Char, '{' ∉ p1 → '}' ∉ p2 →
      extractJsonSlice (p1 ++ ('{' :: mid ++ ['}']) ++ p2) = '{' :: mid ++ ['}']) := by
  have main : ∀ (l : List Char) (s e : Nat), pyFindChar '{' l = some s →
      pyRfindChar '}' l = some e → s ≤ e →
      extractJsonSlice l = strSlice l s (e + 1) ∧ specBraceSlice l = strSlice l s (e + 1) := by
    intro l s e hs he hse
    constructor
    · unfold extractJsonSlice
      rw [if_pos]
      · rw [hs, he]
        simp only
        rw [if_pos (by omega)]
      · rw [Bool.and_eq_true]
        exact ⟨List.elem_eq_true_of_mem (pyFindChar_some_mem hs),
               List.elem_eq_true_of_mem (pyRfindChar_some_mem he)⟩
    · unfold specBraceSlice
      rw [hs, he]
  refine ⟨main, ?_⟩
  intro p1 mid p2 hp1 hp2
  have hassoc : p1 ++ ('{' :: mid ++ ['}']) ++ p2 = p1 ++ (('{' :: mid ++ ['}']) ++ p2) := by
    simp [List.append_assoc]
  have hs : pyFindChar '{' (p1 ++ ('{' :: mid ++ ['}']) ++ p2) = some p1.length := by
    rw [hassoc]
    have : pyFindChar '{' (('{' :: mid ++ ['}']) ++ p2) = some 0 := by
      rw [show ('{' :: mid ++ ['}']) ++ p2 = '{' :: (mid ++ ['}'] ++ p2) by simp]
      exact pyFindChar_cons_self _ _
    simpa using pyFindChar_append_some hp1 this
  have he : pyRfindChar '}' (p1 ++ ('{' :: mid ++ ['}']) ++ p2) =
      some (p1.length + (mid.length + 1)) := by
    rw [pyRfindChar_append, pyRfindChar_eq_none hp2]
    have h2 : p1 ++ ('{' :: mid ++ ['}']) = (p1 ++ '{' :: mid) ++ ['}'] := by simp
    rw [h2, pyRfindChar_append]
    have h3 : pyRfindChar '}' ['}'] = some 0 := rfl
    rw [h3]
    simp only [List.length_append, List.length_cons, List.length_nil, Option.some.injEq]
    omega
  have hmain := (main _ _ _ hs he (by omega)).1
  rw [hmain]
  unfold strSlice
  rw [hassoc, List.drop_left]
  have htake : p1.length + (mid.length + 1) + 1 - p1.length = ('{' :: mid ++ ['}']).length := by
    simp only [List.length_cons, List.length_append, List.length_nil]
    omega
  rw [htake, List.take_left]

/-- C6 (counterexample): the text consisting of a closing brace followed by an
opening brace contains both braces, but the code leaves it unchanged (the
`start_idx < end_idx` guard fails), whereas the claimed slice from the first
opening brace to the last closing brace is empty. -/
theorem brace_slice_guard_counterexample :
    (['}', '{'] : List Char).contains '{' = true ∧
    (['}', '{'] : List Char).contains '}' = true ∧
    extractJsonSlice ['}', '{'] = ['}', '{'] ∧
    specBraceSlice ['}', '{'] = [] ∧
    extractJsonSlice ['}', '{'] ≠ specBraceSlice ['}', '{'] := by
  refine ⟨rfl, rfl, rfl, rfl, ?_⟩
  intro h
  rw [show extractJsonSlice ['}', '{'] = ['}', '{'] from rfl,
      show specBraceSlice ['}', '{'] = [] from rfl] at h
  exact absurd h (by simp)

/-- Instantiation of `brace_slice_extraction` on an object surrounded by
prose. -/
theorem brace_slice_extraction_witness :
    extractJsonSlice ("note ".toList ++ ('{' :: "\"a\": 1".toList ++ ['}']) ++ " end".toList) =
      '{' :: "\"a\": 1".toList ++ ['}'] :=
  brace_slice_extraction.2 "note ".toList "\"a\": 1".toList " end".toList
    (by decide) (by decide)

/-! ## Claim C5: stripping and splitting lemmas -/

theorem pyStripLeft_cons_space {c : Char} (h : pyIsSpace c = true) (l : List Char) :
    pyStripLeft (c :: l) = pyStripLeft l := by
  simp [pyStripLeft, List.dropWhile_cons, h]

theorem pyStripLeft_cons_nonspace {c : Char} (h : pyIsSpace c = false) (l : List Char) :
    pyStripLeft (c :: l) = c :: l := by
  simp [pyStripLeft, List.dropWhile_cons, h]

theorem pyStripRight_append_space {c : Char} (h : pyIsSpace c = true) (l : List Char) :
    pyStripRight (l ++ [c]) = pyStripRight l := by
  simp [pyStripRight, List.reverse_append, List.dropWhile_cons, h]

theorem pyStripRight_append_nonspace {c : Char} (h : pyIsSpace c = false) (l : List Char) :
    pyStripRight (l ++ [c]) = l ++ [c] := by
  simp [pyStripRight, List.reverse_append, List.dropWhile_cons, h]

theorem pyStripLeft_head_not_space (l : List Char) :
    ∀ c rest, pyStripLeft l = c :: rest → pyIsSpace c = false := by
  induction l with
  | nil => intro c rest h; simp [pyStripLeft] at h
  | cons x xs ih =>
    intro c rest h
    by_cases hx : pyIsSpace x
    · rw [pyStripLeft_cons_space hx] at h
      exact ih c rest h
    · rw [pyStripLeft_cons_nonspace (by simpa using hx)] at h
      injection h with h1 h2
      subst h1
      simpa using hx

theorem pyStripLeft_suffix (l : List Char) : pyStripLeft l <:+ l :=
  List.dropWhile_suffix _

theorem pyStripRight_prefix (l : List Char) : pyStripRight l <+: l := by
  have h := List.dropWhile_suffix (l := l.reverse) (p := pyIsSpace)
  have h2 : (List.dropWhile pyIsSpace l.reverse).reverse <+: l.reverse.reverse :=
    List.reverse_prefix.mpr h
  simpa [pyStripRight] using h2

theorem pyStrip_inner (l : List Char) : pyStrip l <:+: l := by
  obtain ⟨t1, ht1⟩ := pyStripRight_prefix (pyStripLeft l)
  obtain ⟨t2, ht2⟩ := pyStripLeft_suffix l
  refine ⟨t2, t1, ?_⟩
  unfold pyStrip
  rw [List.append_assoc, ht1, ht2]

theorem pyStripLeft_idem (l : List Char) : pyStripLeft (pyStripLeft l) = pyStripLeft l := by
  cases h : pyStripLeft l with
  | nil => rfl
  | cons c rest =>
    rw [pyStripLeft_cons_nonspace (pyStripLeft_head_not_space l c rest h)]

theorem pyStripRight_getLast_not_space (l : List Char) :
    ∀ c front, pyStripRight l = front ++ [c] → pyIsSpace c = false := by
  intro c front h
  have h2 : pyStripLeft l.reverse = c :: front.reverse := by
    unfold pyStripRight at h
    unfold pyStripLeft
    have h3 := congrArg List.reverse h
    rw [List.reverse_reverse] at h3
    rw [h3]
    simp
  exact pyStripLeft_head_not_space l.reverse c front.reverse h2

theorem pyStripRight_idem (l : List Char) :
    pyStripRight (pyStripRight l) = pyStripRight l := by
  rcases List.eq_nil_or_concat (pyStripRight l) with h | ⟨front, c, h⟩
  · rw [h]; rfl
  · rw [List.concat_eq_append] at h
    rw [h, pyStripRight_append_nonspace (pyStripRight_getLast_not_space l c front h)]

theorem pyStripLeft_pyStripRight (l : List Char)
    (hl : ∀ c rest, l = c :: rest → pyIsSpace c = false) :
    pyStripLeft (pyStripRight l) = pyStripRight l := by
  cases h : pyStripRight l with
  | nil => rfl
  | cons c rest =>
    have hpre := pyStripRight_prefix l
    rw [h] at hpre
    obtain ⟨t, ht⟩ := hpre
    rw [List.cons_append] at ht
    have := hl c (rest ++ t) ht.symm
    rw [pyStripLeft_cons_nonspace this]

theorem pyStrip_idem (l : List Char) : pyStrip (pyStrip l) = pyStrip l := by
  unfold pyStrip
  rw [pyStripLeft_pyStripRight (pyStripLeft l)
    (fun c rest h => pyStripLeft_head_not_space l c rest h)]
  exact pyStripRight_idem (pyStripLeft l)

theorem pyStrip_wrap_newlines (b : List Char) :
    pyStrip ('\n' :: b ++ ['\n']) = pyStrip b := by
  unfold pyStrip
  rw [show ('\n' :: b ++ ['\n'] : List Char) = '\n' :: (b ++ ['\n']) by simp]
  rw [pyStripLeft_cons_space (c := '\n') (by decide)]
  unfold pyStripLeft
  rw [List.dropWhile_append]
  by_cases hb : (List.dropWhile pyIsSpace b).isEmpty
  · rw [if_pos hb]
    rw [show List.dropWhile pyIsSpace ['\n'] = ([] : List Char) from by decide]
    rw [List.isEmpty_iff] at hb
    rw [hb]
  · rw [if_neg hb]
    exact pyStripRight_append_space (c := '\n') (by decide) (List.dropWhile pyIsSpace b)

theorem hasSub_cons_parts {n : List Char} {x : Char} {l : List Char}
    (h : hasSub n (x :: l) = false) :
    n.isPrefixOf (x :: l) = false ∧ hasSub n l = false := by
  unfold hasSub at h
  exact ⟨by revert h; cases n.isPrefixOf (x :: l) <;> simp,
         by revert h; cases hasSub n l <;> simp⟩

theorem hasSub_of_cons_nontick {x : Char} (hx : x ≠ '`') {l : List Char}
    (h : hasSub TICKS l = false) : hasSub TICKS (x :: l) = false := by
  unfold hasSub
  have hx2 : ('`' == x) = false := by
    rw [beq_eq_false_iff_ne]
    exact fun he => hx he.symm
  rw [h, Bool.or_false]
  rw [show TICKS.isPrefixOf (x :: l) =
    (('`' == x) && (['`', '`'] : List Char).isPrefixOf l) from rfl]
  rw [hx2]
  rfl

theorem hasSub_of_isPrefixOf {n l : List Char} (h : n.isPrefixOf l = true) :
    hasSub n l = true := by
  cases l with
  | nil => unfold hasSub; exact h
  | cons c rest =>
    unfold hasSub
    rw [h]
    rfl

theorem hasSub_eq_true_of_between {n l : List Char} (h : n <:+: l) : hasSub n l = true := by
  obtain ⟨pre, post, hl⟩ := h
  subst hl
  induction pre with
  | nil =>
    simp only [List.nil_append]
    exact hasSub_of_isPrefixOf (List.isPrefixOf_iff_prefix.mpr ⟨post, rfl⟩)
  | cons x xs ih =>
    rw [show (x :: xs) ++ n ++ post = x :: (xs ++ n ++ post) by simp]
    unfold hasSub
    rw [ih]
    simp

theorem splitFirst_some_length {sep : List Char} (hs : sep ≠ []) :
    ∀ {l : List Char} {pq : List Char × List Char}, splitFirst sep l = some pq →
      pq.2.length < l.length := by
  intro l
  induction l with
  | nil => intro pq h; simp [splitFirst] at h
  | cons c rest ih =>
    intro pq h
    simp only [splitFirst] at h
    split at h
    · rename_i hpre
      injection h with h2
      subst h2
      have hlen : 0 < sep.length := List.length_pos.mpr hs
      simp only [List.length_cons, List.length_drop]
      omega
    · revert h
      cases hsp : splitFirst sep rest with
      | none => intro h; exact absurd h (by simp)
      | some pq2 =>
        intro h
        injection h with h2
        subst h2
        have := ih hsp
        simp only [List.length_cons]
        omega

theorem splitTicksAux_fuel {f1 f2 : Nat} :
    ∀ {l : List Char}, l.length < f1 → l.length < f2 →
      splitTicksAux f1 l = splitTicksAux f2 l := by
  induction f1 generalizing f2 with
  | zero => intro l h1 h2; omega
  | succ f ih =>
    intro l h1 h2
    cases f2 with
    | zero => omega
    | succ g =>
      simp only [splitTicksAux]
      cases hsp : splitFirst TICKS l with
      | none => rfl
      | some pq =>
        have hlen := splitFirst_some_length (by simp [TICKS]) hsp
        show pq.1 :: splitTicksAux f pq.2 = pq.1 :: splitTicksAux g pq.2
        exact congrArg (fun t => pq.1 :: t) (ih (by omega) (by omega))

theorem splitFirst_ticks_start (rest : List Char) :
    splitFirst TICKS (TICKS ++ rest) = some ([], rest) := by
  rw [show (TICKS ++ rest : List Char) = '`' :: ('`' :: '`' :: rest) by simp [TICKS]]
  unfold splitFirst
  rw [if_pos (by simp [TICKS, List.isPrefixOf])]
  simp [TICKS]

theorem splitFirst_ticks_terminator {b : List Char} (hb : hasSub TICKS b = false) :
    splitFirst TICKS (b ++ '\n' :: TICKS) = some (b ++ ['\n'], []) := by
  induction b with
  | nil =>
    simp only [List.nil_append]
    unfold splitFirst
    rw [if_neg (by simp [TICKS, List.isPrefixOf])]
    have h0 : splitFirst TICKS TICKS = some ([], []) := by
      have h1 := splitFirst_ticks_start []
      simpa using h1
    rw [h0]
  | cons x b2 ih =>
    obtain ⟨hpre, hsub⟩ := hasSub_cons_parts hb
    rw [List.cons_append]
    unfold splitFirst
    rw [if_neg ?notpre]
    case notpre =>
      cases b2 with
      | nil => simp [TICKS, List.isPrefixOf]
      | cons y b3 =>
        cases b3 with
        | nil => simp [TICKS, List.isPrefixOf]
        | cons z b4 =>
          simp only [TICKS, List.isPrefixOf, List.cons_append] at hpre ⊢
          simp_all
          exact hpre
    rw [ih hsub]
    simp

theorem pyStrip_nonspace_ends (x y : Char) (mid : List Char)
    (hx : pyIsSpace x = false) (hy : pyIsSpace y = false) :
    pyStrip (x :: mid ++ [y]) = x :: mid ++ [y] := by
  unfold pyStrip
  rw [show (x :: mid ++ [y] : List Char) = x :: (mid ++ [y]) from by simp]
  rw [pyStripLeft_cons_nonspace hx]
  rw [show (x :: (mid ++ [y]) : List Char) = (x :: mid) ++ [y] from by simp]
  exact pyStripRight_append_nonspace hy (x :: mid)

theorem splitTicksAux_step {f : Nat} {l : List Char} (hf : l.length < f) :
    splitTicksAux f l =
      match splitFirst TICKS l with
      | none => [l]
      | some pq => pq.1 :: splitTicksAux (pq.2.length + 1) pq.2 := by
  cases f with
  | zero => omega
  | succ g =>
    simp only [splitTicksAux]
    cases hsp : splitFirst TICKS l with
    | none => rfl
    | some pq =>
      have hlen := splitFirst_some_length (by simp [TICKS]) hsp
      show pq.1 :: splitTicksAux g pq.2 = pq.1 :: splitTicksAux (pq.2.length + 1) pq.2
      exact congrArg (fun t => pq.1 :: t) (splitTicksAux_fuel (by omega) (by omega))

theorem splitTicks_fenced (B : List Char) (hB : hasSub TICKS B = false) :
    splitTicks (TICKS ++ (B ++ ['\n']) ++ TICKS) = [[], B ++ ['\n'], []] := by
  unfold splitTicks
  rw [show (TICKS ++ (B ++ ['\n']) ++ TICKS : List Char)
      = TICKS ++ ((B ++ ['\n']) ++ TICKS) from by simp]
  rw [splitTicksAux_step (by omega)]
  rw [splitFirst_ticks_start ((B ++ ['\n']) ++ TICKS)]
  show ([] : List Char) ::
      splitTicksAux (((B ++ ['\n']) ++ TICKS).length + 1) ((B ++ ['\n']) ++ TICKS) =
    [[], B ++ ['\n'], []]
  rw [splitTicksAux_step (by omega)]
  rw [show ((B ++ ['\n']) ++ TICKS : List Char) = B ++ '\n' :: TICKS from by simp]
  rw [splitFirst_ticks_terminator hB]
  rfl

theorem stripFence_fenced (B : List Char) (hB : hasSub TICKS B = false) :
    stripFence (TICKS ++ (B ++ ['\n']) ++ TICKS) =
      (if ['j', 's', 'o', 'n'].isPrefixOf (B ++ ['\n']) then (B ++ ['\n']).drop 4
       else B ++ ['\n']) := by
  unfold stripFence
  rw [if_pos (by
    apply List.isPrefixOf_iff_prefix.mpr
    exact ⟨(B ++ ['\n']) ++ TICKS, by simp⟩)]
  rw [splitTicks_fenced B hB]
  rfl

theorem stripJsonFence_newline (z : List Char) : stripJsonFence ('\n' :: z) = '\n' :: z := by
  unfold stripJsonFence
  rw [show ((['`', '`', '`', 'j', 's', 'o', 'n'] : List Char).isPrefixOf ('\n' :: z))
    = false from rfl]
  simp

theorem stripOpenFence_newline (z : List Char) : stripOpenFence ('\n' :: z) = '\n' :: z := by
  unfold stripOpenFence
  rw [show (TICKS.isPrefixOf ('\n' :: z)) = false from rfl]
  simp

theorem stripCloseFence_newline (z : List Char) :
    stripCloseFence ('\n' :: z ++ ['\n']) = '\n' :: z ++ ['\n'] := by
  unfold stripCloseFence
  have h : (TICKS.isSuffixOf ('\n' :: z ++ ['\n'])) = false := by
    unfold List.isSuffixOf
    rw [show ('\n' :: z ++ ['\n'] : List Char).reverse
        = '\n' :: ('\n' :: z).reverse from by simp]
    rfl
  rw [h]
  simp

theorem cleanup_fenced (tg b : List Char) (htag : tg = [] ∨ tg = ['j', 's', 'o', 'n'])
    (hb : hasSub TICKS b = false) :
    cleanupResponse (TICKS ++ ((tg ++ '\n' :: b) ++ ['\n']) ++ TICKS) = pyStrip b := by
  have hBsub : hasSub TICKS (tg ++ '\n' :: b) = false := by
    rcases htag with h | h <;> subst h
    · simpa using hasSub_of_cons_nontick (by decide) hb
    · rw [show (['j', 's', 'o', 'n'] ++ '\n' :: b : List Char)
          = 'j' :: 's' :: 'o' :: 'n' :: '\n' :: b from by simp]
      exact hasSub_of_cons_nontick (by decide) (hasSub_of_cons_nontick (by decide)
        (hasSub_of_cons_nontick (by decide) (hasSub_of_cons_nontick (by decide)
          (hasSub_of_cons_nontick (by decide) hb))))
  have hW : (TICKS ++ ((tg ++ '\n' :: b) ++ ['\n']) ++ TICKS : List Char)
      = '`' :: (['`', '`'] ++ ((tg ++ '\n' :: b) ++ ['\n']) ++ ['`', '`']) ++ ['`'] := by
    simp [TICKS]
  unfold cleanupResponse
  rw [hW, pyStrip_nonspace_ends _ _ _ (by decide) (by decide), ← hW]
  rw [stripFence_fenced _ hBsub]
  rcases htag with h | h <;> subst h
  · rw [show (([] ++ '\n' :: b : List Char) ++ ['\n']) = '\n' :: (b ++ ['\n']) from by simp]
    rw [show ((['j', 's', 'o', 'n'] : List Char).isPrefixOf ('\n' :: (b ++ ['\n'])))
      = false from rfl]
    simp only [Bool.false_eq_true, if_false]
    rw [stripJsonFence_newline, stripOpenFence_newline]
    rw [show ('\n' :: (b ++ ['\n']) : List Char) = '\n' :: b ++ ['\n'] from by simp]
    rw [stripCloseFence_newline]
    exact pyStrip_wrap_newlines b
  · rw [show ((['j', 's', 'o', 'n'] ++ '\n' :: b : List Char) ++ ['\n'])
        = 'j' :: 's' :: 'o' :: 'n' :: ('\n' :: (b ++ ['\n'])) from by simp]
    rw [show ((['j', 's', 'o', 'n'] : List Char).isPrefixOf
      ('j' :: 's' :: 'o' :: 'n' :: ('\n' :: (b ++ ['\n'])))) = true from rfl]
    simp only [if_true]
    rw [show ('j' :: 's' :: 'o' :: 'n' :: ('\n' :: (b ++ ['\n'])) : List Char).drop 4
        = '\n' :: (b ++ ['\n']) from rfl]
    rw [stripJsonFence_newline, stripOpenFence_newline]
    rw [show ('\n' :: (b ++ ['\n']) : List Char) = '\n' :: b ++ ['\n'] from by simp]
    rw [stripCloseFence_newline]
    exact pyStrip_wrap_newlines b

theorem infix_of_hasSub {n l : List Char} (h : hasSub n l = true) : n <:+: l := by
  induction l with
  | nil =>
    unfold hasSub at h
    exact (List.isPrefixOf_iff_prefix.mp h).isInfix
  | cons c rest ih =>
    unfold hasSub at h
    rw [Bool.or_eq_true] at h
    rcases h with h | h
    · exact (List.isPrefixOf_iff_prefix.mp h).isInfix
    · obtain ⟨s, t, he⟩ := ih h
      exact ⟨c :: s, t, by rw [← he]; simp⟩

theorem cleanup_plain (b : List Char) (hb : hasSub TICKS b = false) :
    cleanupResponse b = pyStrip b := by
  have hinfix : ∀ n : List Char, n.isPrefixOf (pyStrip b) = true → hasSub TICKS n = true →
      False := by
    intro n hpre hn
    have h1 : n <+: pyStrip b := List.isPrefixOf_iff_prefix.mp hpre
    have h2 : TICKS <:+: b :=
      ((infix_of_hasSub hn).trans h1.isInfix).trans (pyStrip_inner b)
    rw [hasSub_eq_true_of_between h2] at hb
    exact absurd hb (by simp)
  unfold cleanupResponse
  have h1 : stripFence (pyStrip b) = pyStrip b := by
    unfold stripFence
    rw [if_neg (fun h => hinfix TICKS h (hasSub_eq_true_of_between (List.infix_refl _)))]
  rw [h1]
  have h2 : stripJsonFence (pyStrip b) = pyStrip b := by
    unfold stripJsonFence
    rw [if_neg (fun h => hinfix ['`', '`', '`', 'j', 's', 'o', 'n'] h (by rfl))]
  rw [h2]
  have h3 : stripOpenFence (pyStrip b) = pyStrip b := by
    unfold stripOpenFence
    rw [if_neg (fun h => hinfix TICKS h (hasSub_eq_true_of_between (List.infix_refl _)))]
  rw [h3]
  have h4 : stripCloseFence (pyStrip b) = pyStrip b := by
    unfold stripCloseFence
    have hns : (TICKS.isSuffixOf (pyStrip b)) = false := by
      cases hc : TICKS.isSuffixOf (pyStrip b) with
      | false => rfl
      | true =>
        exfalso
        have hsuff : TICKS <:+ pyStrip b := by
          rw [← List.reverse_prefix]
          exact List.isPrefixOf_iff_prefix.mp hc
        have h5 : TICKS <:+: b := hsuff.isInfix.trans (pyStrip_inner b)
        rw [hasSub_eq_true_of_between h5] at hb
        exact absurd hb (by simp)
    rw [hns]
    simp
  rw [h4]
  exact pyStrip_idem _

/-- C5: a response wrapped in a triple-backtick fenced block, with or without
the `json` language tag after the opening delimiter, produces exactly the same
structured result as the unwrapped enclosed body fed to the interpreter
directly (for bodies that do not themselves contain a fence delimiter). -/
theorem fenced_block_interpretation_invariant (b tag : String)
    (htag : tag = "" ∨ tag = "json") (hb : hasSub TICKS b.toList = false) :
    interpretResponse ("```" ++ tag ++ "\n" ++ b ++ "\n```") = interpretResponse b := by
  have hdata : ("```" ++ tag ++ "\n" ++ b ++ "\n```").toList
      = TICKS ++ ((tag.toList ++ '\n' :: b.toList) ++ ['\n']) ++ TICKS := by
    show ("```" ++ tag ++ "\n" ++ b ++ "\n```").data
      = TICKS ++ ((tag.data ++ '\n' :: b.data) ++ ['\n']) ++ TICKS
    simp only [String.data_append]
    simp [TICKS]
  have htag2 : tag.toList = [] ∨ tag.toList = ['j', 's', 'o', 'n'] := by
    rcases htag with h | h <;> subst h
    · exact Or.inl rfl
    · exact Or.inr rfl
  have hclean : cleanupResponse (("```" ++ tag ++ "\n" ++ b ++ "\n```").toList)
      = cleanupResponse b.toList := by
    rw [hdata, cleanup_fenced tag.toList b.toList htag2 hb, cleanup_plain b.toList hb]
  unfold interpretResponse
  rw [hclean]

/-- Instantiation of `fenced_block_interpretation_invariant` on a fenced empty
vehicle list. -/
theorem fenced_block_interpretation_invariant_witness :
    interpretResponse ("```" ++ "json" ++ "\n" ++ "\x7b\"vehicles\": []\x7d" ++ "\n```")
      = interpretResponse "\x7b\"vehicles\": []\x7d" :=
  fenced_block_interpretation_invariant "\x7b\"vehicles\": []\x7d" "json"
    (Or.inr rfl) (by decide)


/-! ## The repair step on documents with trailing separators (C7) -/

-- Test 2: split on pVal with symbolic digit head.
theorem pVal_digit_go (f : Nat) (d : Char) (r : List Char) (hd : d.isDigit = true)
    (hs : skipWs (d :: r) = d :: r) :
    pVal (f + 1) (d :: r) = pNum (d :: r) := by
  simp only [pVal, hs]
  split <;> rename_i heq
  all_goals
    first
    | (injection heq with h1 h2
       first
       | (rw [h1] at hd; exact absurd hd (by decide))
       | (rw [← h1, ← h2, hd]; simp))
    | (exact absurd heq (by simp))


theorem digit_ne (d : Char) (hd : d.isDigit = true) (c : Char) (hc : c.isDigit = false) :
    d ≠ c := by
  intro h; rw [h, hc] at hd; exact absurd hd (by decide)

theorem takeWhile_append_stop {p : Char → Bool} (A : List Char) (b : Char) (B : List Char)
    (hA : ∀ c ∈ A, p c = true) (hb : p b = false) :
    (A ++ b :: B).takeWhile p = A ∧ (A ++ b :: B).dropWhile p = b :: B := by
  induction A with
  | nil => simp [List.takeWhile_cons, List.dropWhile_cons, hb]
  | cons a A ih =>
    have ha : p a = true := hA a (by simp)
    have := ih (fun c hc => hA c (by simp [hc]))
    simp [List.takeWhile_cons, List.dropWhile_cons, ha, this.1, this.2]

theorem takeWhile_all {p : Char → Bool} (A : List Char) (hA : ∀ c ∈ A, p c = true) :
    A.takeWhile p = A ∧ A.dropWhile p = [] := by
  induction A with
  | nil => simp
  | cons a A ih =>
    have ha : p a = true := hA a (by simp)
    have := ih (fun c hc => hA c (by simp [hc]))
    simp [List.takeWhile_cons, List.dropWhile_cons, ha, this.1, this.2]

theorem pNum_digits (ds rest : List Char) (hne : ds ≠ [])
    (hd : ∀ c ∈ ds, c.isDigit = true)
    (hr : restSafe rest = true) :
    pNum (ds ++ rest) = some (Json.num ((natFromDigits ds : ℕ) : ℚ), rest) := by
  obtain ⟨d, ds', rfl⟩ : ∃ d ds', ds = d :: ds' := by
    cases ds with
    | nil => exact absurd rfl hne
    | cons d ds' => exact ⟨d, ds', rfl⟩
  have hd0 : d.isDigit = true := hd d (by simp)
  have hne' : d ≠ '-' := digit_ne d hd0 '-' (by decide)
  cases rest with
  | nil =>
    have ht := takeWhile_all (p := Char.isDigit) (d :: ds') hd
    simp [pNum, hne', ht.1, ht.2]
  | cons c r2 =>
    have hc : c.isDigit = false := by
      simp only [restSafe, Bool.not_eq_true', Bool.or_eq_false_iff] at hr
      exact hr.1
    have hcd : c ≠ '.' := by
      simp only [restSafe, Bool.not_eq_true', Bool.or_eq_false_iff] at hr
      intro h
      rw [h] at hr
      exact absurd hr.2 (by simp)
    have ht := takeWhile_append_stop (d :: ds') c r2 hd hc
    rw [List.cons_append] at ht
    simp [pNum, hne', ht.1, ht.2, hcd]


-- natChars facts.
theorem digitChar_isDigit (d : Nat) (h : d < 10) : (digitChar d).isDigit = true := by
  interval_cases d <;> decide

theorem digitVal_digitChar (d : Nat) (h : d < 10) : digitVal (digitChar d) = d := by
  interval_cases d <;> decide

theorem natCharsAux_acc (f n : Nat) (acc : List Char) :
    natCharsAux f n acc = natCharsAux f n [] ++ acc := by
  induction f generalizing n acc with
  | zero => simp [natCharsAux]
  | succ f ih =>
    by_cases h : n < 10
    · simp [natCharsAux, h]
    · rw [natCharsAux, if_neg h, natCharsAux, if_neg h, ih, ih (n / 10) [digitChar (n % 10)],
        List.append_assoc]
      rfl

theorem natChars_ne_nil (n : Nat) : natChars n ≠ [] := by
  rw [natChars, natCharsAux]
  by_cases h : n < 10
  · simp [h]
  · rw [if_neg h, natCharsAux_acc]
    simp

theorem natChars_digits (n : Nat) : ∀ c ∈ natChars n, c.isDigit = true := by
  have key : ∀ f n (acc : List Char), (∀ c ∈ acc, c.isDigit = true) →
      ∀ c ∈ natCharsAux f n acc, c.isDigit = true := by
    intro f
    induction f with
    | zero => intro n acc hacc; simpa [natCharsAux] using hacc
    | succ f ih =>
      intro n acc hacc c hc
      rw [natCharsAux] at hc
      by_cases h : n < 10
      · rw [if_pos h] at hc
        rcases List.mem_cons.mp hc with h1 | h1
        · rw [h1]; exact digitChar_isDigit n h
        · exact hacc c h1
      · rw [if_neg h] at hc
        refine ih (n / 10) (digitChar (n % 10) :: acc) ?_ c hc
        intro c2 hc2
        rcases List.mem_cons.mp hc2 with h1 | h1
        · rw [h1]; exact digitChar_isDigit _ (Nat.mod_lt _ (by omega))
        · exact hacc c2 h1
  exact key (n + 1) n [] (by simp)

theorem natFromDigits_natChars (n : Nat) : natFromDigits (natChars n) = n := by
  have key : ∀ f n, n < 10 ^ f → ∀ a : Nat,
      (natCharsAux f n []).foldl (fun a c => 10 * a + digitVal c) a =
        a * 10 ^ (natCharsAux f n []).length + n := by
    intro f
    induction f with
    | zero => intro n hn a; interval_cases n; simp [natCharsAux]
    | succ f ih =>
      intro n hn a
      by_cases h : n < 10
      · simp [natCharsAux, h, digitVal_digitChar n h]; ring
      · rw [natCharsAux, if_neg h, natCharsAux_acc]
        have hq : n / 10 < 10 ^ f := by
          rw [Nat.div_lt_iff_lt_mul (by omega)]
          calc n < 10 ^ (f + 1) := hn
          _ = 10 ^ f * 10 := by ring
        rw [List.foldl_append, ih (n / 10) hq a, List.length_append, List.length_cons,
          List.length_nil]
        simp only [List.foldl_cons, List.foldl_nil, digitVal_digitChar _ (Nat.mod_lt _ (by omega))]
        have : 10 * (a * 10 ^ (natCharsAux f (n / 10) []).length + n / 10) + n % 10 =
            a * (10 ^ (natCharsAux f (n / 10) []).length * 10) + (10 * (n / 10) + n % 10) := by
          ring
        rw [this, Nat.div_add_mod]
        ring_nf
  have hbound : n < 10 ^ (n + 1) := by
    calc n < 2 ^ n := Nat.lt_two_pow n
    _ ≤ 10 ^ n := Nat.pow_le_pow_left (by omega) n
    _ ≤ 10 ^ (n + 1) := Nat.pow_le_pow_right (by omega) (by omega)
  have := key (n + 1) n hbound 0
  simpa [natFromDigits, natChars] using this

theorem rat_of_natnum (q : ℚ) (hden : q.den = 1) (hnum : 0 ≤ q.num) :
    ((q.num.toNat : ℕ) : ℚ) = q := by
  have h1 : (q.num.toNat : ℤ) = q.num := Int.toNat_of_nonneg hnum
  have h2 : ((q.num : ℤ) : ℚ) = q := by
    conv_rhs => rw [← Rat.num_div_den q]
    rw [hden]
    simp
  calc ((q.num.toNat : ℕ) : ℚ) = ((q.num.toNat : ℤ) : ℚ) := by push_cast; ring
  _ = ((q.num : ℤ) : ℚ) := by rw [h1]
  _ = q := h2


-- skipWs and string lemmas.
theorem skipWs_cons (c : Char) (l : List Char) (h : pyIsSpace c = false) :
    skipWs (c :: l) = c :: l := by
  simp [skipWs, List.dropWhile_cons, h]

theorem mk_toList (s : String) : String.mk s.toList = s := by
  cases s
  rfl

theorem pStrRest_exact (k rest : List Char) (hk : ∀ c ∈ k, c ≠ '"') :
    pStrRest (k ++ '"' :: rest) = some (String.mk k, rest) := by
  have ht := takeWhile_append_stop (p := fun c => decide (c ≠ '"')) k '"' rest
    (fun c hc => decide_eq_true (hk c hc)) (by decide)
  simp only [pStrRest, ht.1, ht.2]

theorem pVal_obj_go (f : Nat) (s r : List Char) (d : Char) (X : List Char)
    (hs : skipWs s = '{' :: r) (hr : skipWs r = d :: X) (hd : d ≠ '}') :
    pVal (f + 1) s = pMembers f (d :: X) [] := by
  simp only [pVal, hs, hr]
  split <;> rename_i heq
  · injection heq with h1 h2
    exact absurd h1 hd
  · rfl

theorem pVal_arr_go (f : Nat) (s r : List Char) (d : Char) (X : List Char)
    (hs : skipWs s = '[' :: r) (hr : skipWs r = d :: X) (hd : d ≠ ']') :
    pVal (f + 1) s = pItems f (d :: X) [] := by
  simp only [pVal, hs, hr]
  split <;> rename_i heq
  · injection heq with h1 h2
    exact absurd h1 hd
  · rfl

theorem objSet_append (acc : List (String × Json)) (k : String) (v : Json)
    (h : ∀ q ∈ acc, q.1 ≠ k) :
    objSet acc k v = acc ++ [(k, v)] := by
  induction acc with
  | nil => rfl
  | cons q acc ih =>
    obtain ⟨k2, w⟩ := q
    rw [objSet, if_neg (h (k2, w) (by simp)), ih (fun q hq => h q (by simp [hq]))]
    rfl


-- Character-class facts.
theorem digit_not_space (d : Char) (hd : d.isDigit = true) : pyIsSpace d = false := by
  cases hsp : pyIsSpace d
  · rfl
  · exfalso
    simp only [pyIsSpace, Bool.or_eq_true, decide_eq_true_eq] at hsp
    rcases hsp with ((((h | h) | h) | h) | h) | h <;> (rw [h] at hd; exact absurd hd (by decide))

theorem okChar_spec (c : Char) (h : okChar c = true) :
    c ≠ '"' ∧ c ≠ '\\' ∧ c ≠ '{' ∧ c ≠ '}' ∧ c ≠ '[' ∧ c ≠ ']' ∧ c ≠ ',' := by
  simp only [okChar, Bool.not_eq_true', Bool.or_eq_false_iff, decide_eq_false_iff_not] at h
  exact ⟨h.1.1.1.1.1.1, h.1.1.1.1.1.2, h.1.1.1.1.2, h.1.1.1.2, h.1.1.2, h.1.2, h.2⟩

theorem sizeV_pos (t : TJson) : 1 ≤ sizeV t := by
  cases t <;> simp [sizeV]

-- Head shape of a rendered value.
theorem renderT_head (t : TJson) :
    ∃ d D, renderT t = d :: D ∧ pyIsSpace d = false ∧ d ≠ ']' ∧ d ≠ '}' ∧ d ≠ ',' := by
  cases t with
  | null => exact ⟨'n', _, rfl, by decide, by decide, by decide, by decide⟩
  | bool b =>
    cases b
    · exact ⟨'f', _, rfl, by decide, by decide, by decide, by decide⟩
    · exact ⟨'t', _, rfl, by decide, by decide, by decide, by decide⟩
  | num q =>
    cases hds : natChars q.num.toNat with
    | nil => exact absurd hds (natChars_ne_nil _)
    | cons d X =>
      have hd : d.isDigit = true := natChars_digits _ d (by rw [hds]; simp)
      exact ⟨d, X, by rw [renderT, hds], digit_not_space d hd,
        digit_ne d hd ']' (by decide), digit_ne d hd '}' (by decide),
        digit_ne d hd ',' (by decide)⟩
  | str s => exact ⟨'"', _, rfl, by decide, by decide, by decide, by decide⟩
  | arr xs t => exact ⟨'[', _, rfl, by decide, by decide, by decide, by decide⟩
  | obj kvs t => exact ⟨'{', _, rfl, by decide, by decide, by decide, by decide⟩

theorem renderItems_cons (x : TJson) (more : List TJson) :
    ∃ tl, renderItems (x :: more) = renderT x ++ tl := by
  cases more with
  | nil => exact ⟨[], by simp [renderItems]⟩
  | cons y more => exact ⟨',' :: renderItems (y :: more), rfl⟩


-- The roundtrip.
mutual

theorem RTval : ∀ (f : Nat) (t : TJson) (rest : List Char),
    saneT t = true → noTrail t = true → sizeV t ≤ f → restSafe rest = true →
    pVal f (renderT t ++ rest) = some (eraseT t, rest) := by
  intro f t rest hs hn hf hr
  obtain ⟨f', rfl⟩ : ∃ f', f = f' + 1 := by
    have := sizeV_pos t
    cases f
    · omega
    · exact ⟨_, rfl⟩
  cases t with
  | null =>
    show pVal (f' + 1) ('n' :: 'u' :: 'l' :: 'l' :: rest) = some (Json.null, rest)
    rw [pVal, skipWs_cons _ _ (by decide)]
    simp [List.isPrefixOf, eraseT]
  | bool b =>
    cases b with
    | false =>
      show pVal (f' + 1) ('f' :: 'a' :: 'l' :: 's' :: 'e' :: rest) = some (Json.bool false, rest)
      rw [pVal, skipWs_cons _ _ (by decide)]
      simp [List.isPrefixOf, eraseT]
    | true =>
      show pVal (f' + 1) ('t' :: 'r' :: 'u' :: 'e' :: rest) = some (Json.bool true, rest)
      rw [pVal, skipWs_cons _ _ (by decide)]
      simp [List.isPrefixOf, eraseT]
  | num q =>
    simp only [saneT, Bool.and_eq_true, beq_iff_eq, decide_eq_true_eq] at hs
    show pVal (f' + 1) (natChars q.num.toNat ++ rest) = some (Json.num q, rest)
    cases hds : natChars q.num.toNat with
    | nil => exact absurd hds (natChars_ne_nil _)
    | cons d X =>
      have hd : d.isDigit = true := natChars_digits _ d (by rw [hds]; simp)
      rw [List.cons_append, pVal_digit_go f' d (X ++ rest) hd
        (skipWs_cons _ _ (digit_not_space d hd)), ← List.cons_append, ← hds,
        pNum_digits _ _ (natChars_ne_nil _) (natChars_digits _) hr,
        natFromDigits_natChars, rat_of_natnum q hs.1 hs.2]
  | str s =>
    simp only [saneT, List.all_eq_true] at hs
    show pVal (f' + 1) (('"' :: (s.toList ++ ['"'])) ++ rest) = some (Json.str s, rest)
    rw [List.cons_append, List.append_assoc, List.singleton_append, pVal,
      skipWs_cons _ _ (by decide)]
    show Option.map (fun p => (Json.str p.1, p.2)) (pStrRest (s.toList ++ '"' :: rest)) =
      some (Json.str s, rest)
    rw [pStrRest_exact _ _ (fun c hc => (okChar_spec c (hs c hc)).1), mk_toList]
    rfl
  | arr xs t =>
    simp only [noTrail, Bool.and_eq_true, Bool.not_eq_true'] at hn
    rw [hn.1] at *
    simp only [saneT] at hs
    cases xs with
    | nil =>
      rw [show renderT (TJson.arr [] false) ++ rest = '[' :: (']' :: rest) from by
        simp [renderT, renderItems]]
      rfl
    | cons x more =>
      obtain ⟨tl, htl⟩ := renderItems_cons x more
      obtain ⟨d, D, hdD, hdns, hd1, hd2, hd3⟩ := renderT_head x
      have hshape : renderT (TJson.arr (x :: more) false) ++ rest =
          '[' :: (renderItems (x :: more) ++ (']' :: rest)) := by
        show ('[' :: (renderItems (x :: more) ++ [] ++ [']'])) ++ rest = _
        simp [List.append_assoc]
      have hhead : renderItems (x :: more) ++ (']' :: rest) = d :: (D ++ tl ++ (']' :: rest)) := by
        rw [htl, hdD]
        simp [List.append_assoc]
      rw [hshape, pVal_arr_go f' _ _ d (D ++ tl ++ (']' :: rest))
        (skipWs_cons _ _ (by decide)) (by rw [hhead]; exact skipWs_cons _ _ hdns) hd1,
        ← hhead,
        RTitems f' (x :: more) [] rest (by simp) hs hn.2 (by simp [sizeV] at hf; omega)]
      simp [eraseT]
  | obj kvs t =>
    simp only [noTrail, Bool.and_eq_true, Bool.not_eq_true'] at hn
    rw [hn.1] at *
    simp only [saneT, Bool.and_eq_true] at hs
    cases kvs with
    | nil =>
      rw [show renderT (TJson.obj [] false) ++ rest = '{' :: ('}' :: rest) from by
        simp [renderT, renderMembers]]
      rfl
    | cons kv more =>
      have hshape : renderT (TJson.obj (kv :: more) false) ++ rest =
          '{' :: (renderMembers (kv :: more) ++ ('}' :: rest)) := by
        show ('{' :: (renderMembers (kv :: more) ++ [] ++ ['}'])) ++ rest = _
        simp [List.append_assoc]
      have hmh : ∃ tl, renderMembers (kv :: more) = '"' :: tl := by
        cases more with
        | nil => exact ⟨_, rfl⟩
        | cons kv2 more => exact ⟨_, rfl⟩
      obtain ⟨tl, htl⟩ := hmh
      rw [hshape, pVal_obj_go f' _ _ '"' (tl ++ ('}' :: rest))
        (skipWs_cons _ _ (by decide)) (by rw [htl]; exact skipWs_cons _ _ (by decide)) (by decide),
        show '"' :: (tl ++ ('}' :: rest)) = renderMembers (kv :: more) ++ ('}' :: rest) by
          rw [htl]; rfl,
        RTmembers f' (kv :: more) [] rest (by simp) hs.2 hn.2 hs.1
          (by intro p hp q hq; exact absurd hq (by simp)) (by simp [sizeV] at hf; omega)]
      simp [eraseT]

theorem RTitems : ∀ (f : Nat) (xs : List TJson) (acc : List Json) (rest : List Char),
    xs ≠ [] → saneTList xs = true → noTrailList xs = true → sizeItems xs ≤ f →
    pItems f (renderItems xs ++ (']' :: rest)) acc =
      some (Json.arr (acc ++ eraseTList xs), rest) := by
  intro f xs acc rest hne hs hn hf
  obtain ⟨f', rfl⟩ : ∃ f', f = f' + 1 := by
    cases xs with
    | nil => exact absurd rfl hne
    | cons x more =>
      simp only [sizeItems] at hf
      cases f
      · omega
      · exact ⟨_, rfl⟩
  cases xs with
  | nil => exact absurd rfl hne
  | cons x more =>
    simp only [saneTList, Bool.and_eq_true] at hs
    simp only [noTrailList, Bool.and_eq_true] at hn
    simp only [sizeItems] at hf
    cases more with
    | nil =>
      rw [show renderItems [x] = renderT x from rfl, pItems,
        RTval f' x (']' :: rest) hs.1 hn.1 (by omega) (by rfl)]
      simp only
      rw [skipWs_cons _ _ (by decide)]
      simp [eraseTList]
    | cons y more2 =>
      rw [show renderItems (x :: y :: more2) ++ (']' :: rest) =
          renderT x ++ (',' :: (renderItems (y :: more2) ++ (']' :: rest))) by
        rw [renderItems]; simp]
      conv_lhs => whnf
      rw [RTval f' x _ hs.1 hn.1 (by omega) (by rfl)]
      conv_lhs => whnf
      rw [RTitems f' (y :: more2) (acc ++ [eraseT x]) rest (by simp) hs.2 hn.2 (by omega)]
      simp [eraseTList]

theorem RTmembers : ∀ (f : Nat) (kvs : List (String × TJson)) (acc : List (String × Json))
    (rest : List Char),
    kvs ≠ [] → saneTKvs kvs = true → noTrailKvs kvs = true →
    nodupKeys (kvs.map Prod.fst) = true →
    (∀ p ∈ kvs, ∀ q ∈ acc, q.1 ≠ p.1) →
    sizeKvs kvs ≤ f →
    pMembers f (renderMembers kvs ++ ('}' :: rest)) acc =
      some (Json.obj (acc ++ eraseTKvs kvs), rest) := by
  intro f kvs acc rest hne hs hn hnd hdisj hf
  obtain ⟨f', rfl⟩ : ∃ f', f = f' + 1 := by
    cases kvs with
    | nil => exact absurd rfl hne
    | cons kv more =>
      simp only [sizeKvs] at hf
      cases f
      · omega
      · exact ⟨_, rfl⟩
  cases kvs with
  | nil => exact absurd rfl hne
  | cons kv more =>
    obtain ⟨k, v⟩ := kv
    simp only [saneTKvs, Bool.and_eq_true, List.all_eq_true] at hs
    simp only [noTrailKvs, Bool.and_eq_true] at hn
    simp only [sizeKvs] at hf
    have hkey : ∀ c ∈ k.toList, c ≠ '"' := fun c hc => (okChar_spec c (hs.1.1 c hc)).1
    have hacc : objSet acc k (eraseT v) = acc ++ [(k, eraseT v)] :=
      objSet_append acc k (eraseT v) (fun q hq => hdisj (k, v) (by simp) q hq)
    cases more with
    | nil =>
      rw [show renderMembers [(k, v)] ++ ('}' :: rest) =
          '"' :: (k.toList ++ ('"' :: (':' :: (renderT v ++ ('}' :: rest))))) by
        rw [renderMembers]; simp]
      conv_lhs => whnf
      rw [pStrRest_exact _ _ hkey, mk_toList]
      conv_lhs => whnf
      rw [RTval f' v ('}' :: rest) hs.1.2 hn.1 (by omega) (by rfl)]
      conv_lhs => whnf
      rw [hacc]
      simp [eraseTKvs]
    | cons kv2 more2 =>
      rw [show renderMembers ((k, v) :: kv2 :: more2) ++ ('}' :: rest) =
          '"' :: (k.toList ++ ('"' :: (':' :: (renderT v ++
            (',' :: (renderMembers (kv2 :: more2) ++ ('}' :: rest))))))) by
        rw [renderMembers]; simp]
      conv_lhs => whnf
      rw [pStrRest_exact _ _ hkey, mk_toList]
      conv_lhs => whnf
      rw [RTval f' v _ hs.1.2 hn.1 (by omega) (by rfl)]
      conv_lhs => whnf
      rw [hacc]
      have hndA : ((kv2 :: more2).map Prod.fst).contains k = false ∧
          nodupKeys ((kv2 :: more2).map Prod.fst) = true := by
        rw [List.map_cons, nodupKeys, Bool.and_eq_true, Bool.not_eq_true'] at hnd
        exact ⟨hnd.1, hnd.2⟩
      have hknotin : ∀ p ∈ kv2 :: more2, k ≠ p.1 := by
        intro p hp heq
        have hmem : k ∈ (kv2 :: more2).map Prod.fst := by
          rw [heq]
          exact List.mem_map_of_mem _ hp
        have h2 : ((kv2 :: more2).map Prod.fst).contains k = true :=
          List.elem_eq_true_of_mem hmem
        rw [hndA.1] at h2
        exact absurd h2 (by decide)
      rw [RTmembers f' (kv2 :: more2) (acc ++ [(k, eraseT v)]) rest (by simp) hs.2 hn.2
        hndA.2
        (by
          intro p hp q hq
          rcases List.mem_append.mp hq with h1 | h1
          · exact hdisj p (by simp [hp]) q h1
          · have : q = (k, eraseT v) := by simpa using h1
            rw [this]
            exact hknotin p hp) (by omega)]
      simp [eraseTKvs]

end


-- subAux step lemmas.
theorem subAux_nil_cons (close c : Char) (l : List Char) (hc : c ≠ ',') :
    subAux close [] (c :: l) = c :: subAux close [] l := by
  rw [subAux]
  simp [hc]

theorem walk_no_comma (close : Char) (A rest : List Char) (hA : ∀ c ∈ A, c ≠ ',') :
    subAux close [] (A ++ rest) = A ++ subAux close [] rest := by
  induction A with
  | nil => simp
  | cons a A ih =>
    rw [List.cons_append, subAux_nil_cons close a _ (hA a (by simp)),
      ih (fun c hc => hA c (by simp [hc]))]
    rfl

theorem subAux_pending (close d : Char) (rest : List Char)
    (h1 : d ≠ close) (h2 : pyIsSpace d = false) (h3 : d ≠ ',') :
    subAux close [','] (d :: rest) = ',' :: subAux close [] (d :: rest) := by
  conv_lhs => rw [subAux]
  rw [if_neg (by simp), if_neg h1, h2, if_neg (by simp), if_neg h3,
    subAux_nil_cons close d rest h3]
  rfl

theorem renderMembers_head (kv : String × TJson) (more : List (String × TJson)) :
    ∃ tl, renderMembers (kv :: more) = '"' :: tl := by
  cases more with
  | nil => exact ⟨_, rfl⟩
  | cons kv2 more => exact ⟨_, rfl⟩


-- The substitution lemmas.
mutual

theorem SUBval : ∀ (close : Char) (t : TJson) (rest : List Char),
    (close = '}' ∨ close = ']') → saneT t = true →
    subAux close [] (renderT t ++ rest) =
      renderT (tDropClose close t) ++ subAux close [] rest := by
  intro close t rest hc hs
  cases t with
  | null =>
    rw [show tDropClose close TJson.null = TJson.null from rfl]
    exact walk_no_comma close _ rest (by decide)
  | bool b =>
    rw [show tDropClose close (TJson.bool b) = TJson.bool b from rfl]
    cases b
    · exact walk_no_comma close _ rest (by decide)
    · exact walk_no_comma close _ rest (by decide)
  | num q =>
    rw [show tDropClose close (TJson.num q) = TJson.num q from rfl]
    exact walk_no_comma close _ rest
      (fun c hcm => digit_ne c (natChars_digits _ c hcm) ',' (by decide))
  | str s =>
    rw [show tDropClose close (TJson.str s) = TJson.str s from rfl]
    refine walk_no_comma close _ rest ?_
    intro c hcm
    simp only [saneT, List.all_eq_true] at hs
    rcases List.mem_cons.mp hcm with h | h
    · rw [h]; decide
    · rcases List.mem_append.mp h with h2 | h2
      · exact (okChar_spec c (hs c h2)).2.2.2.2.2.2
      · rw [List.mem_singleton.mp h2]; decide
  | arr xs t =>
    simp only [saneT] at hs
    have hstep : renderT (TJson.arr xs t) ++ rest =
        '[' :: (renderItems xs ++ ((if t then [','] else []) ++ (']' :: rest))) := by
      rw [renderT]
      simp [List.append_assoc]
    rw [hstep, subAux_nil_cons close '[' _ (by decide), SUBitems close xs _ hc hs]
    cases t with
    | false =>
      rw [if_neg (by simp), List.nil_append, subAux_nil_cons close ']' rest (by decide)]
      rw [show tDropClose close (TJson.arr xs false) =
        TJson.arr (tDropCloseList close xs) false from by rw [tDropClose]; simp, renderT]
      simp
    | true =>
      rw [if_pos rfl, List.cons_append, List.nil_append]
      conv_lhs => rw [subAux]
      rw [if_pos (by simp), if_pos rfl]
      rcases hc with hcl | hcl
      · subst hcl
        rw [subAux_pending '}' ']' rest (by decide) (by decide) (by decide),
          subAux_nil_cons '}' ']' rest (by decide)]
        rw [show tDropClose '}' (TJson.arr xs true) =
          TJson.arr (tDropCloseList '}' xs) true from by rw [tDropClose]; simp, renderT]
        simp
      · subst hcl
        conv_lhs => rw [subAux]
        rw [if_neg (by simp), if_pos rfl]
        rw [show tDropClose ']' (TJson.arr xs true) =
          TJson.arr (tDropCloseList ']' xs) false from by rw [tDropClose]; simp, renderT]
        simp
  | obj kvs t =>
    simp only [saneT, Bool.and_eq_true] at hs
    have hstep : renderT (TJson.obj kvs t) ++ rest =
        '{' :: (renderMembers kvs ++ ((if t then [','] else []) ++ ('}' :: rest))) := by
      rw [renderT]
      simp [List.append_assoc]
    rw [hstep, subAux_nil_cons close '{' _ (by decide), SUBkvs close kvs _ hc hs.2]
    cases t with
    | false =>
      rw [if_neg (by simp), List.nil_append, subAux_nil_cons close '}' rest (by decide)]
      rw [show tDropClose close (TJson.obj kvs false) =
        TJson.obj (tDropCloseKvs close kvs) false from by rw [tDropClose]; simp, renderT]
      simp
    | true =>
      rw [if_pos rfl, List.cons_append, List.nil_append]
      conv_lhs => rw [subAux]
      rw [if_pos (by simp), if_pos rfl]
      rcases hc with hcl | hcl
      · subst hcl
        conv_lhs => rw [subAux]
        rw [if_neg (by simp), if_pos rfl]
        rw [show tDropClose '}' (TJson.obj kvs true) =
          TJson.obj (tDropCloseKvs '}' kvs) false from by rw [tDropClose]; simp, renderT]
        simp
      · subst hcl
        rw [subAux_pending ']' '}' rest (by decide) (by decide) (by decide),
          subAux_nil_cons ']' '}' rest (by decide)]
        rw [show tDropClose ']' (TJson.obj kvs true) =
          TJson.obj (tDropCloseKvs ']' kvs) true from by rw [tDropClose]; simp, renderT]
        simp

theorem SUBitems : ∀ (close : Char) (xs : List TJson) (rest : List Char),
    (close = '}' ∨ close = ']') → saneTList xs = true →
    subAux close [] (renderItems xs ++ rest) =
      renderItems (tDropCloseList close xs) ++ subAux close [] rest := by
  intro close xs rest hc hs
  cases xs with
  | nil => simp [renderItems, tDropCloseList]
  | cons x more =>
    simp only [saneTList, Bool.and_eq_true] at hs
    cases more with
    | nil =>
      rw [show renderItems [x] = renderT x from rfl, SUBval close x rest hc hs.1]
      rfl
    | cons y more2 =>
      rw [show renderItems (x :: y :: more2) ++ rest =
          renderT x ++ (',' :: (renderItems (y :: more2) ++ rest)) by
        rw [renderItems]; simp, SUBval close x _ hc hs.1]
      conv_lhs => rw [subAux]
      rw [if_pos (by simp), if_pos rfl]
      obtain ⟨tl, htl⟩ := renderItems_cons y more2
      obtain ⟨d, D, hdD, hdns, hd1, hd2, hd3⟩ := renderT_head y
      have hdcl : d ≠ close := by rcases hc with h | h <;> (subst h; assumption)
      have hZ : renderItems (y :: more2) ++ rest = d :: (D ++ tl ++ rest) := by
        rw [htl, hdD]
        simp [List.append_assoc]
      rw [hZ, subAux_pending close d _ hdcl hdns hd3, ← hZ,
        SUBitems close (y :: more2) rest hc hs.2]
      rw [show tDropCloseList close (x :: y :: more2) =
        tDropClose close x :: tDropClose close y :: tDropCloseList close more2 from rfl]
      rw [show renderItems (tDropClose close x :: tDropClose close y ::
          tDropCloseList close more2) =
        renderT (tDropClose close x) ++ ',' :: renderItems (tDropClose close y ::
          tDropCloseList close more2) from rfl]
      simp [tDropCloseList]

theorem SUBkvs : ∀ (close : Char) (kvs : List (String × TJson)) (rest : List Char),
    (close = '}' ∨ close = ']') → saneTKvs kvs = true →
    subAux close [] (renderMembers kvs ++ rest) =
      renderMembers (tDropCloseKvs close kvs) ++ subAux close [] rest := by
  intro close kvs rest hc hs
  cases kvs with
  | nil => simp [renderMembers, tDropCloseKvs]
  | cons kv more =>
    obtain ⟨k, v⟩ := kv
    simp only [saneTKvs, Bool.and_eq_true, List.all_eq_true] at hs
    have hkeyc : ∀ c ∈ k.toList, c ≠ ',' :=
      fun c hcm => (okChar_spec c (hs.1.1 c hcm)).2.2.2.2.2.2
    cases more with
    | nil =>
      rw [show renderMembers [(k, v)] ++ rest =
          '"' :: (k.toList ++ ('"' :: (':' :: (renderT v ++ rest)))) by
        rw [renderMembers]; simp,
        subAux_nil_cons close '"' _ (by decide),
        walk_no_comma close k.toList _ hkeyc,
        subAux_nil_cons close '"' _ (by decide),
        subAux_nil_cons close ':' _ (by decide),
        SUBval close v rest hc hs.1.2]
      rw [show tDropCloseKvs close [(k, v)] = [(k, tDropClose close v)] from rfl]
      rw [show renderMembers [(k, tDropClose close v)] =
        '"' :: (k.toList ++ '"' :: ':' :: renderT (tDropClose close v)) from rfl]
      simp
    | cons kv2 more2 =>
      rw [show renderMembers ((k, v) :: kv2 :: more2) ++ rest =
          '"' :: (k.toList ++ ('"' :: (':' :: (renderT v ++
            (',' :: (renderMembers (kv2 :: more2) ++ rest)))))) by
        rw [renderMembers]; simp,
        subAux_nil_cons close '"' _ (by decide),
        walk_no_comma close k.toList _ hkeyc,
        subAux_nil_cons close '"' _ (by decide),
        subAux_nil_cons close ':' _ (by decide),
        SUBval close v _ hc hs.1.2]
      conv_lhs => rw [subAux]
      rw [if_pos (by simp), if_pos rfl]
      obtain ⟨tl2, htl2⟩ := renderMembers_head kv2 more2
      rw [htl2, List.cons_append, subAux_pending close '"' _
          (by rcases hc with h | h <;> (subst h; decide)) (by decide) (by decide)]
      rw [show '"' :: (tl2 ++ rest) = renderMembers (kv2 :: more2) ++ rest by rw [htl2]; rfl]
      rw [SUBkvs close (kv2 :: more2) rest hc hs.2]
      rw [show tDropCloseKvs close ((k, v) :: kv2 :: more2) =
        (k, tDropClose close v) :: tDropCloseKvs close (kv2 :: more2) from rfl]
      obtain ⟨kv2', more2', hsh⟩ : ∃ a b, tDropCloseKvs close (kv2 :: more2) = a :: b :=
        ⟨_, _, rfl⟩
      rw [hsh]
      rw [show renderMembers ((k, tDropClose close v) :: kv2' :: more2') =
        ('"' :: (k.toList ++ '"' :: ':' :: renderT (tDropClose close v))) ++
          ',' :: renderMembers (kv2' :: more2') from rfl]
      simp

end


theorem closeBal_nil : closeBal [] = 0 := by simp [closeBal]

theorem closeBal_cons (c : Char) (l : List Char) :
    closeBal (c :: l) = closeBal l +
      ((if c = '}' then 1 else 0) - (if c = '{' then 1 else 0) : Int) := by
  simp only [closeBal, List.count_cons]
  by_cases h1 : c = '}' <;> by_cases h2 : c = '{' <;> simp_all <;> omega

theorem closeBal_append (l1 l2 : List Char) :
    closeBal (l1 ++ l2) = closeBal l1 + closeBal l2 := by
  simp only [closeBal, List.count_append]
  push_cast
  ring

theorem closeBal_reverse (l : List Char) : closeBal l.reverse = closeBal l := by
  simp [closeBal, List.count_reverse]

theorem closeBal_no_brace (l : List Char) (h : ∀ c ∈ l, c ≠ '{' ∧ c ≠ '}') :
    closeBal l = 0 := by
  have h1 : l.count '}' = 0 := by
    rw [List.count_eq_zero]
    intro hm
    exact absurd rfl (h _ hm).2
  have h2 : l.count '{' = 0 := by
    rw [List.count_eq_zero]
    intro hm
    exact absurd rfl (h _ hm).1
  simp [closeBal, h1, h2]

theorem open_mem {s X : List Char} (h : ('{' :: s) <:+ X) : '{' ∈ X :=
  h.subset (List.mem_cons_self _ _)

theorem suffix_append_cases {l A B : List Char} (h : l <:+ A ++ B) :
    l <:+ B ∨ ∃ l2, l = l2 ++ B ∧ l2 <:+ A := by
  obtain ⟨pre, hp⟩ := h
  rcases List.append_eq_append_iff.mp hp with ⟨a2, ha1, ha2⟩ | ⟨c2, hc1, hc2⟩
  · right
    exact ⟨a2, ha2.symm ▸ rfl, ⟨pre, ha1.symm⟩⟩
  · left
    exact ⟨c2, hc2.symm⟩

-- Balance of rendered documents.
mutual

theorem BALval : ∀ (t : TJson), saneT t = true → closeBal (renderT t) = 0 := by
  intro t hs
  cases t with
  | null => rw [show renderT TJson.null = ['n', 'u', 'l', 'l'] from rfl]; decide
  | bool b =>
    cases b
    · rw [show renderT (TJson.bool false) = ['f', 'a', 'l', 's', 'e'] from rfl]; decide
    · rw [show renderT (TJson.bool true) = ['t', 'r', 'u', 'e'] from rfl]; decide
  | num q =>
    refine closeBal_no_brace _ (fun c hc => ?_)
    have hd := natChars_digits _ c hc
    exact ⟨digit_ne c hd '{' (by decide), digit_ne c hd '}' (by decide)⟩
  | str s =>
    simp only [saneT, List.all_eq_true] at hs
    refine closeBal_no_brace _ (fun c hc => ?_)
    rcases List.mem_cons.mp hc with h | h
    · rw [h]; exact ⟨by decide, by decide⟩
    · rcases List.mem_append.mp h with h2 | h2
      · have := okChar_spec c (hs c h2)
        exact ⟨this.2.2.1, this.2.2.2.1⟩
      · rw [List.mem_singleton.mp h2]; exact ⟨by decide, by decide⟩
  | arr xs t =>
    simp only [saneT] at hs
    rw [renderT, closeBal_cons, closeBal_append, closeBal_append, BALitems xs hs]
    cases t <;> simp <;> decide
  | obj kvs t =>
    simp only [saneT, Bool.and_eq_true] at hs
    rw [renderT, closeBal_cons, closeBal_append, closeBal_append, BALkvs kvs hs.2]
    cases t <;> simp <;> decide

theorem BALitems : ∀ (xs : List TJson), saneTList xs = true → closeBal (renderItems xs) = 0 := by
  intro xs hs
  cases xs with
  | nil => rw [show renderItems [] = [] from rfl]; decide
  | cons x more =>
    simp only [saneTList, Bool.and_eq_true] at hs
    cases more with
    | nil => rw [show renderItems [x] = renderT x from rfl]; exact BALval x hs.1
    | cons y more2 =>
      rw [show renderItems (x :: y :: more2) = renderT x ++ ',' :: renderItems (y :: more2)
        from rfl, closeBal_append, closeBal_cons, BALval x hs.1, BALitems (y :: more2) hs.2]
      decide

theorem BALkvs : ∀ (kvs : List (String × TJson)), saneTKvs kvs = true →
    closeBal (renderMembers kvs) = 0 := by
  intro kvs hs
  cases kvs with
  | nil => rw [show renderMembers [] = [] from rfl]; decide
  | cons kv more =>
    obtain ⟨k, v⟩ := kv
    simp only [saneTKvs, Bool.and_eq_true, List.all_eq_true] at hs
    have hkey : closeBal k.toList = 0 := by
      refine closeBal_no_brace _ (fun c hc => ?_)
      have := okChar_spec c (hs.1.1 c hc)
      exact ⟨this.2.2.1, this.2.2.2.1⟩
    cases more with
    | nil =>
      rw [show renderMembers [(k, v)] = '"' :: (k.toList ++ '"' :: ':' :: renderT v) from rfl,
        closeBal_cons, closeBal_append, closeBal_cons, closeBal_cons, hkey,
        BALval v hs.1.2]
      decide
    | cons kv2 more2 =>
      rw [show renderMembers ((k, v) :: kv2 :: more2) =
        ('"' :: (k.toList ++ '"' :: ':' :: renderT v)) ++ ',' :: renderMembers (kv2 :: more2)
        from rfl, closeBal_append, closeBal_cons, closeBal_append, closeBal_cons,
        closeBal_cons, closeBal_cons, hkey, BALval v hs.1.2, BALkvs (kv2 :: more2) hs.2]
      decide

end

-- The member chunk contains an open brace only inside its value.
theorem member_chunk_suffix (k : String) (v : TJson) (s : List Char)
    (hk : ∀ c ∈ k.toList, okChar c = true)
    (h : ('{' :: s) <:+ '"' :: (k.toList ++ ('"' :: (':' :: renderT v)))) :
    ('{' :: s) <:+ renderT v := by
  rcases List.suffix_cons_iff.mp h with h1 | h1
  · exact absurd (List.cons.injEq .. ▸ h1).1 (by decide)
  · rcases suffix_append_cases h1 with h2 | ⟨l2, hl2, hsuf⟩
    · rcases List.suffix_cons_iff.mp h2 with h3 | h3
      · exact absurd (List.cons.injEq .. ▸ h3).1 (by decide)
      · rcases List.suffix_cons_iff.mp h3 with h4 | h4
        · exact absurd (List.cons.injEq .. ▸ h4).1 (by decide)
        · exact h4
    · cases l2 with
      | nil => exact absurd (List.cons.injEq .. ▸ hl2.symm).1 (by decide)
      | cons c l2' =>
        have hc : c = '{' := ((List.cons.injEq .. ▸ hl2).1).symm
        rw [hc] at hsuf
        exact absurd ((okChar_spec '{' (hk '{' (open_mem hsuf))).2.2.1) (fun hh => hh rfl)

-- Every suffix opened by a brace closes at least once more than it opens.
mutual

theorem SUFval : ∀ (t : TJson) (s : List Char), saneT t = true →
    ('{' :: s) <:+ renderT t → 1 ≤ closeBal s := by
  intro t s hs h
  cases t with
  | null =>
    have := open_mem h
    rw [show renderT TJson.null = ['n', 'u', 'l', 'l'] from rfl] at this
    exact absurd this (by decide)
  | bool b =>
    have := open_mem h
    cases b
    · rw [show renderT (TJson.bool false) = ['f', 'a', 'l', 's', 'e'] from rfl] at this
      exact absurd this (by decide)
    · rw [show renderT (TJson.bool true) = ['t', 'r', 'u', 'e'] from rfl] at this
      exact absurd this (by decide)
  | num q =>
    have := natChars_digits _ '{' (open_mem h)
    exact absurd this (by decide)
  | str s2 =>
    simp only [saneT, List.all_eq_true] at hs
    have := open_mem h
    rcases List.mem_cons.mp this with h1 | h1
    · exact absurd h1 (by decide)
    · rcases List.mem_append.mp h1 with h2 | h2
      · exact absurd ((okChar_spec '{' (hs '{' h2)).2.2.1) (fun hh => hh rfl)
      · exact absurd (List.mem_singleton.mp h2) (by decide)
  | arr xs t =>
    simp only [saneT] at hs
    rw [show renderT (TJson.arr xs t) =
      '[' :: (renderItems xs ++ ((if t then [','] else []) ++ [']'])) from by
        rw [renderT]; simp] at h
    rcases List.suffix_cons_iff.mp h with h1 | h1
    · exact absurd (List.cons.injEq .. ▸ h1).1 (by decide)
    · rcases suffix_append_cases h1 with h2 | ⟨l2, hl2, hsuf⟩
      · have := open_mem h2
        cases t <;> simp_all
      · cases l2 with
        | nil =>
          rw [List.nil_append] at hl2
          cases t <;> simp_all
        | cons c l2' =>
          have hc : c = '{' := ((List.cons.injEq .. ▸ hl2).1).symm
          have hls : s = l2' ++ ((if t then [','] else []) ++ [']']) :=
            (List.cons.injEq .. ▸ hl2).2
          rw [hc] at hsuf
          have hb := SUFitems xs l2' hs hsuf
          rw [hls, closeBal_append, closeBal_append]
          have : closeBal (if t then [','] else []) = 0 := by cases t <;> decide
          rw [this]
          have : closeBal [']'] = 0 := by decide
          rw [this]
          omega
  | obj kvs t =>
    simp only [saneT, Bool.and_eq_true] at hs
    rw [show renderT (TJson.obj kvs t) =
      '{' :: (renderMembers kvs ++ ((if t then [','] else []) ++ ['}'])) from by
        rw [renderT]; simp] at h
    rcases List.suffix_cons_iff.mp h with h1 | h1
    · have hls : s = renderMembers kvs ++ ((if t then [','] else []) ++ ['}']) :=
        (List.cons.injEq .. ▸ h1).2
      rw [hls, closeBal_append, closeBal_append, BALkvs kvs hs.2]
      have h2 : closeBal (if t then [','] else []) = 0 := by cases t <;> decide
      have h3 : closeBal ['}'] = 1 := by decide
      omega
    · rcases suffix_append_cases h1 with h2 | ⟨l2, hl2, hsuf⟩
      · have := open_mem h2
        cases t <;> simp_all
      · cases l2 with
        | nil =>
          rw [List.nil_append] at hl2
          cases t <;> simp_all
        | cons c l2' =>
          have hc : c = '{' := ((List.cons.injEq .. ▸ hl2).1).symm
          have hls : s = l2' ++ ((if t then [','] else []) ++ ['}']) :=
            (List.cons.injEq .. ▸ hl2).2
          rw [hc] at hsuf
          have hb := SUFkvs kvs l2' hs.2 hsuf
          rw [hls, closeBal_append, closeBal_append]
          have h4 : closeBal (if t then [','] else []) = 0 := by cases t <;> decide
          have h5 : closeBal ['}'] = 1 := by decide
          omega

theorem SUFitems : ∀ (xs : List TJson) (s : List Char), saneTList xs = true →
    ('{' :: s) <:+ renderItems xs → 1 ≤ closeBal s := by
  intro xs s hs h
  cases xs with
  | nil =>
    rw [show renderItems [] = [] from rfl] at h
    exact absurd (open_mem h) (by simp)
  | cons x more =>
    simp only [saneTList, Bool.and_eq_true] at hs
    cases more with
    | nil =>
      rw [show renderItems [x] = renderT x from rfl] at h
      exact SUFval x s hs.1 h
    | cons y more2 =>
      rw [show renderItems (x :: y :: more2) = renderT x ++ ',' :: renderItems (y :: more2)
        from rfl] at h
      rcases suffix_append_cases h with h2 | ⟨l2, hl2, hsuf⟩
      · rcases List.suffix_cons_iff.mp h2 with h3 | h3
        · exact absurd (List.cons.injEq .. ▸ h3).1 (by decide)
        · exact SUFitems (y :: more2) s hs.2 h3
      · cases l2 with
        | nil => exact absurd (List.cons.injEq .. ▸ hl2.symm).1 (by decide)
        | cons c l2' =>
          have hc : c = '{' := ((List.cons.injEq .. ▸ hl2).1).symm
          have hls : s = l2' ++ (',' :: renderItems (y :: more2)) :=
            (List.cons.injEq .. ▸ hl2).2
          rw [hc] at hsuf
          have hb := SUFval x l2' hs.1 hsuf
          have h6 : closeBal (',' :: renderItems (y :: more2)) = 0 := by
            rw [closeBal_cons, BALitems (y :: more2) hs.2]
            decide
          rw [hls, closeBal_append, h6]
          omega

theorem SUFkvs : ∀ (kvs : List (String × TJson)) (s : List Char), saneTKvs kvs = true →
    ('{' :: s) <:+ renderMembers kvs → 1 ≤ closeBal s := by
  intro kvs s hs h
  cases kvs with
  | nil =>
    rw [show renderMembers [] = [] from rfl] at h
    exact absurd (open_mem h) (by simp)
  | cons kv more =>
    obtain ⟨k, v⟩ := kv
    simp only [saneTKvs, Bool.and_eq_true, List.all_eq_true] at hs
    cases more with
    | nil =>
      rw [show renderMembers [(k, v)] =
        '"' :: (k.toList ++ ('"' :: (':' :: renderT v))) from by rw [renderMembers]] at h
      exact SUFval v s hs.1.2 (member_chunk_suffix k v s hs.1.1 h)
    | cons kv2 more2 =>
      rw [show renderMembers ((k, v) :: kv2 :: more2) =
        ('"' :: (k.toList ++ ('"' :: (':' :: renderT v)))) ++
          (',' :: renderMembers (kv2 :: more2)) from by rw [renderMembers]] at h
      rcases suffix_append_cases h with h2 | ⟨l2, hl2, hsuf⟩
      · rcases List.suffix_cons_iff.mp h2 with h3 | h3
        · exact absurd (List.cons.injEq .. ▸ h3).1 (by decide)
        · exact SUFkvs (kv2 :: more2) s hs.2 h3
      · cases l2 with
        | nil => exact absurd (List.cons.injEq .. ▸ hl2.symm).1 (by decide)
        | cons c l2' =>
          have hc : c = '{' := ((List.cons.injEq .. ▸ hl2).1).symm
          have hls : s = l2' ++ (',' :: renderMembers (kv2 :: more2)) :=
            (List.cons.injEq .. ▸ hl2).2
          rw [hc] at hsuf
          have hb := SUFval v l2' hs.1.2 (member_chunk_suffix k v l2' hs.1.1 hsuf)
          have h6 : closeBal (',' :: renderMembers (kv2 :: more2)) = 0 := by
            rw [closeBal_cons, BALkvs (kv2 :: more2) hs.2]
            decide
          rw [hls, closeBal_append, h6]
          omega

end


-- The backward scan.
theorem closeBal_cons_close (l : List Char) : closeBal ('}' :: l) = closeBal l + 1 := by
  rw [closeBal_cons, if_pos rfl, if_neg (show ¬('}' : Char) = '{' by decide)]
  ring

theorem closeBal_cons_open (l : List Char) : closeBal ('{' :: l) = closeBal l - 1 := by
  rw [closeBal_cons, if_neg (show ¬('{' : Char) = '}' by decide), if_pos rfl]
  ring

theorem closeBal_cons_other (c : Char) (l : List Char) (h1 : c ≠ '}') (h2 : c ≠ '{') :
    closeBal (c :: l) = closeBal l := by
  rw [closeBal_cons]
  simp [h1, h2]

theorem findOpenAux_append (u : List Char) : ∀ (tail : List Char) (c : Int),
    (∀ p q, u = p ++ '{' :: q → c + closeBal p ≠ 1) →
    findOpenAux (u ++ tail) c = findOpenAux tail (c + closeBal u) := by
  induction u with
  | nil =>
    intro tail c h
    rw [List.nil_append, closeBal_nil, add_zero]
  | cons x u ih =>
    intro tail c h
    rw [List.cons_append, findOpenAux]
    by_cases h1 : x = '}'
    · subst h1
      rw [if_pos rfl, ih tail (c + 1) (fun p q hpq => by
        have h5 := h ('}' :: p) q (by rw [hpq]; rfl)
        rw [closeBal_cons_close] at h5
        omega)]
      congr 1
      rw [closeBal_cons_close]
      ring
    · by_cases h2 : x = '{'
      · subst h2
        rw [if_neg (by decide), if_pos rfl]
        have hne : ¬ (c - 1 = 0) := by
          have h5 := h [] u (by simp)
          rw [closeBal_nil] at h5
          omega
        rw [if_neg hne, ih tail (c - 1) (fun p q hpq => by
          have h5 := h ('{' :: p) q (by rw [hpq]; rfl)
          rw [closeBal_cons_open] at h5
          omega)]
        congr 1
        rw [closeBal_cons_open]
        ring
      · rw [if_neg h1, if_neg h2, ih tail c (fun p q hpq => by
          have h5 := h (x :: p) q (by rw [hpq]; rfl)
          rw [closeBal_cons_other x p h1 h2] at h5
          omega)]
        congr 1
        rw [closeBal_cons_other x u h1 h2]

theorem findOpen_whole (M : List Char) (hbal : closeBal M = 0)
    (hsuf : ∀ s, ('{' :: s) <:+ M → 1 ≤ closeBal s) :
    findOpenAux (('{' :: (M ++ ['}'])).reverse) 0 = some 0 := by
  have hshape : ('{' :: (M ++ ['}'])).reverse = '}' :: (M.reverse ++ ['{']) := by
    simp
  rw [hshape, findOpenAux, if_pos rfl,
    findOpenAux_append M.reverse ['{'] (0 + 1) (fun p q hpq => by
      have hM : M = q.reverse ++ ('{' :: p.reverse) := by
        have h6 := congrArg List.reverse hpq
        simpa using h6
      have h7 := hsuf p.reverse ⟨q.reverse, hM.symm⟩
      rw [closeBal_reverse] at h7
      omega)]
  rw [closeBal_reverse, hbal]
  decide


-- tDropClose preserves denotation, sanity and keys.
theorem keys_tDropCloseKvs (close : Char) (kvs : List (String × TJson)) :
    (tDropCloseKvs close kvs).map Prod.fst = kvs.map Prod.fst := by
  induction kvs with
  | nil => rfl
  | cons kv more ih => simp [tDropCloseKvs, ih]

mutual

theorem eraseT_tDropClose : ∀ (close : Char) (t : TJson),
    eraseT (tDropClose close t) = eraseT t := by
  intro close t
  cases t with
  | null => rfl
  | bool b => rfl
  | num q => rfl
  | str s => rfl
  | arr xs t => rw [tDropClose, eraseT, eraseT, eraseTList_tDropCloseList close xs]
  | obj kvs t => rw [tDropClose, eraseT, eraseT, eraseTKvs_tDropCloseKvs close kvs]

theorem eraseTList_tDropCloseList : ∀ (close : Char) (xs : List TJson),
    eraseTList (tDropCloseList close xs) = eraseTList xs := by
  intro close xs
  cases xs with
  | nil => rfl
  | cons x more =>
    rw [tDropCloseList, eraseTList, eraseTList, eraseT_tDropClose close x,
      eraseTList_tDropCloseList close more]

theorem eraseTKvs_tDropCloseKvs : ∀ (close : Char) (kvs : List (String × TJson)),
    eraseTKvs (tDropCloseKvs close kvs) = eraseTKvs kvs := by
  intro close kvs
  cases kvs with
  | nil => rfl
  | cons kv more =>
    rw [tDropCloseKvs, eraseTKvs, eraseTKvs, eraseT_tDropClose close kv.2,
      eraseTKvs_tDropCloseKvs close more]

end

mutual

theorem saneT_tDropClose : ∀ (close : Char) (t : TJson), saneT t = true →
    saneT (tDropClose close t) = true := by
  intro close t hs
  cases t with
  | null => exact hs
  | bool b => exact hs
  | num q => exact hs
  | str s => exact hs
  | arr xs t =>
    rw [tDropClose, saneT]
    exact saneTList_tDropCloseList close xs hs
  | obj kvs t =>
    simp only [saneT, Bool.and_eq_true] at hs
    rw [tDropClose, saneT, keys_tDropCloseKvs, Bool.and_eq_true]
    exact ⟨hs.1, saneTKvs_tDropCloseKvs close kvs hs.2⟩

theorem saneTList_tDropCloseList : ∀ (close : Char) (xs : List TJson), saneTList xs = true →
    saneTList (tDropCloseList close xs) = true := by
  intro close xs hs
  cases xs with
  | nil => rfl
  | cons x more =>
    simp only [saneTList, Bool.and_eq_true] at hs
    rw [tDropCloseList, saneTList, Bool.and_eq_true]
    exact ⟨saneT_tDropClose close x hs.1, saneTList_tDropCloseList close more hs.2⟩

theorem saneTKvs_tDropCloseKvs : ∀ (close : Char) (kvs : List (String × TJson)),
    saneTKvs kvs = true → saneTKvs (tDropCloseKvs close kvs) = true := by
  intro close kvs hs
  cases kvs with
  | nil => rfl
  | cons kv more =>
    simp only [saneTKvs, Bool.and_eq_true] at hs
    rw [tDropCloseKvs, saneTKvs, Bool.and_eq_true, Bool.and_eq_true]
    exact ⟨⟨hs.1.1, saneT_tDropClose close kv.2 hs.1.2⟩, saneTKvs_tDropCloseKvs close more hs.2⟩

end

mutual

theorem noTrail_dropBoth : ∀ (t : TJson),
    noTrail (tDropClose ']' (tDropClose '}' t)) = true := by
  intro t
  cases t with
  | null => rfl
  | bool b => rfl
  | num q => rfl
  | str s => rfl
  | arr xs t =>
    rw [tDropClose, tDropClose, noTrail, Bool.and_eq_true]
    exact ⟨by simp, noTrailList_dropBoth xs⟩
  | obj kvs t =>
    rw [tDropClose, tDropClose, noTrail, Bool.and_eq_true]
    refine ⟨by simp, noTrailKvs_dropBoth kvs⟩

theorem noTrailList_dropBoth : ∀ (xs : List TJson),
    noTrailList (tDropCloseList ']' (tDropCloseList '}' xs)) = true := by
  intro xs
  cases xs with
  | nil => rfl
  | cons x more =>
    rw [tDropCloseList, tDropCloseList, noTrailList, Bool.and_eq_true]
    exact ⟨noTrail_dropBoth x, noTrailList_dropBoth more⟩

theorem noTrailKvs_dropBoth : ∀ (kvs : List (String × TJson)),
    noTrailKvs (tDropCloseKvs ']' (tDropCloseKvs '}' kvs)) = true := by
  intro kvs
  cases kvs with
  | nil => rfl
  | cons kv more =>
    rw [tDropCloseKvs, tDropCloseKvs, noTrailKvs, Bool.and_eq_true]
    exact ⟨noTrail_dropBoth kv.2, noTrailKvs_dropBoth more⟩

end

-- Fuel bound: the parser needs no more fuel than the rendered length.
mutual

theorem sizeV_le_render : ∀ (t : TJson), sizeV t ≤ (renderT t).length := by
  intro t
  cases t with
  | null => decide
  | bool b => cases b <;> decide
  | num q =>
    rw [sizeV, renderT]
    have := natChars_ne_nil q.num.toNat
    cases h : natChars q.num.toNat with
    | nil => exact absurd h this
    | cons d X => simp
  | str s =>
    rw [sizeV, renderT]
    simp
  | arr xs t =>
    rw [sizeV, renderT]
    have := sizeItems_le_render xs
    simp only [List.length_cons, List.length_append]
    omega
  | obj kvs t =>
    rw [sizeV, renderT]
    have := sizeKvs_le_render kvs
    simp only [List.length_cons, List.length_append]
    omega

theorem sizeItems_le_render : ∀ (xs : List TJson),
    sizeItems xs ≤ (renderItems xs).length + 1 := by
  intro xs
  cases xs with
  | nil => decide
  | cons x more =>
    cases more with
    | nil =>
      rw [sizeItems, sizeItems, show renderItems [x] = renderT x from rfl]
      have := sizeV_le_render x
      omega
    | cons y more2 =>
      rw [sizeItems, show renderItems (x :: y :: more2) =
        renderT x ++ ',' :: renderItems (y :: more2) from rfl]
      have h1 := sizeV_le_render x
      have h2 := sizeItems_le_render (y :: more2)
      simp only [List.length_append, List.length_cons]
      omega

theorem sizeKvs_le_render : ∀ (kvs : List (String × TJson)),
    sizeKvs kvs ≤ (renderMembers kvs).length + 1 := by
  intro kvs
  cases kvs with
  | nil => decide
  | cons kv more =>
    cases more with
    | nil =>
      rw [sizeKvs, sizeKvs, show renderMembers [kv] =
        '"' :: (kv.1.toList ++ '"' :: ':' :: renderT kv.2) from rfl]
      have := sizeV_le_render kv.2
      simp only [List.length_cons, List.length_append]
      omega
    | cons kv2 more2 =>
      rw [sizeKvs, show renderMembers (kv :: kv2 :: more2) =
        ('"' :: (kv.1.toList ++ '"' :: ':' :: renderT kv.2)) ++
          ',' :: renderMembers (kv2 :: more2) from rfl]
      have h1 := sizeV_le_render kv.2
      have h2 := sizeKvs_le_render (kv2 :: more2)
      simp only [List.length_append, List.length_cons]
      omega

end


theorem pyRfindChar_append_close (A : List Char) :
    pyRfindChar '}' (A ++ ['}']) = some A.length := by
  induction A with
  | nil => rfl
  | cons x rest ih =>
    rw [List.cons_append, pyRfindChar, ih]
    rfl

theorem subCommaClose_render (close : Char) (t : TJson)
    (hc : close = '}' ∨ close = ']') (hs : saneT t = true) :
    subCommaClose close (renderT t) = renderT (tDropClose close t) := by
  have h := SUBval close t [] hc hs
  rw [List.append_nil] at h
  rw [subCommaClose, h, show subAux close [] [] = [] from rfl, List.append_nil]

theorem parseJsonOpt_render (t : TJson) (hs : saneT t = true) (hn : noTrail t = true) :
    parseJsonOpt (renderT t) = some (eraseT t) := by
  have h := RTval (2 * (renderT t).length + 2) t [] hs hn
    (by have := sizeV_le_render t; omega) rfl
  rw [List.append_nil] at h
  rw [parseJsonOpt, h]
  rfl

theorem repairAttempt_render (t : TJson) (hs : saneT t = true) (ho : isObjT t = true) :
    repairAttempt (renderT t) = some (eraseT t) := by
  have hs1 : saneT (tDropClose '}' t) = true := saneT_tDropClose '}' t hs
  have hfix : subCommaClose ']' (subCommaClose '}' (renderT t)) =
      renderT (tDropClose ']' (tDropClose '}' t)) := by
    rw [subCommaClose_render '}' t (Or.inl rfl) hs,
      subCommaClose_render ']' _ (Or.inr rfl) hs1]
  have hs2 : saneT (tDropClose ']' (tDropClose '}' t)) = true := saneT_tDropClose ']' _ hs1
  obtain ⟨kvs, tf, rfl⟩ : ∃ kvs tf, t = TJson.obj kvs tf := by
    cases t with
    | obj kvs tf => exact ⟨kvs, tf, rfl⟩
    | null => exact absurd ho (by decide)
    | bool b => exact absurd ho (by simp [isObjT])
    | num q => exact absurd ho (by simp [isObjT])
    | str s => exact absurd ho (by simp [isObjT])
    | arr xs t2 => exact absurd ho (by simp [isObjT])
  have hform : tDropClose ']' (tDropClose '}' (TJson.obj kvs tf)) =
      TJson.obj (tDropCloseKvs ']' (tDropCloseKvs '}' kvs)) false := by
    rw [tDropClose, tDropClose]
    simp
  set kvs2 := tDropCloseKvs ']' (tDropCloseKvs '}' kvs) with hkvs2
  have hsane2 : nodupKeys (kvs2.map Prod.fst) = true ∧ saneTKvs kvs2 = true := by
    rw [hform] at hs2
    simp only [saneT, Bool.and_eq_true] at hs2
    exact hs2
  have hsh : renderT (TJson.obj kvs2 false) = '{' :: (renderMembers kvs2 ++ ['}']) := by
    rw [renderT]
    simp
  have hrfind : pyRfindChar '}' (renderT (TJson.obj kvs2 false)) =
      some ((renderMembers kvs2).length + 1) := by
    rw [hsh, show '{' :: (renderMembers kvs2 ++ ['}']) =
      ('{' :: renderMembers kvs2) ++ ['}'] from rfl, pyRfindChar_append_close]
    rfl
  have hlen : (renderT (TJson.obj kvs2 false)).length = (renderMembers kvs2).length + 2 := by
    rw [hsh]
    simp
  have hscan : scanStart (renderT (TJson.obj kvs2 false)) ((renderMembers kvs2).length + 1)
      = 0 := by
    rw [scanStart, show (renderMembers kvs2).length + 1 + 1 =
      (renderT (TJson.obj kvs2 false)).length by omega, List.take_length]
    rw [hsh, findOpen_whole (renderMembers kvs2) (BALkvs kvs2 hsane2.2)
      (fun s hsuf => SUFkvs kvs2 s hsane2.2 hsuf)]
    rfl
  have hslice : strSlice (renderT (TJson.obj kvs2 false)) 0
      ((renderMembers kvs2).length + 1 + 1) = renderT (TJson.obj kvs2 false) := by
    rw [strSlice, List.drop_zero, Nat.sub_zero, ← hlen, List.take_length]
  rw [repairAttempt]
  simp only [hfix, hform, hrfind]
  rw [if_pos (by omega), hscan, hslice]
  have hsane3 : saneT (TJson.obj kvs2 false) = true := by
    rw [← hform]
    exact hs2
  have hnt3 : noTrail (TJson.obj kvs2 false) = true := by
    rw [← hform]
    exact noTrail_dropBoth _
  rw [parseJsonOpt_render _ hsane3 hnt3]
  congr 1
  rw [← hform, eraseT_tDropClose, eraseT_tDropClose]


/-- C7 (counterexample): the claim asserts that EVERY JSON-like text that is
valid except for trailing separators is successfully decoded by the repair
step.  The top-level array text `[1,2,]` is such a text — after the two
`re.sub` separator removals it parses cleanly — yet the repair step returns
nothing, because lines 288-290 only proceed when the fixed text contains a
closing curly brace at a positive index, which a bare array never does. -/
theorem trailing_comma_array_not_repaired :
    parseJsonOpt (subCommaClose ']' (subCommaClose '}' ("[1,2,]".toList))) =
      some (Json.arr [Json.num ((1 : ℕ) : ℚ), Json.num ((2 : ℕ) : ℚ)]) ∧
    repairAttempt ("[1,2,]".toList) = none := ⟨rfl, rfl⟩

/-- C7 (amended): for every sane document (numbers rendered as plain naturals,
strings and keys free of JSON punctuation, object keys distinct) that is an
object at top level, with any combination of trailing commas before closing
braces and brackets, the repair step removes exactly the trailing separators
and decodes the text to the document's denotation. -/
theorem repair_trailing_comma_objects (t : TJson) (hs : saneT t = true)
    (ho : isObjT t = true) :
    repairAttempt (renderT t) = some (eraseT t) :=
  repairAttempt_render t hs ho

/-- C7 witness: the document `{"vehicles":[],}` — with a trailing comma before
both the closing bracket and the closing brace — is repaired to the object
`{"vehicles": []}`. -/
theorem repair_trailing_comma_objects_witness :
    saneT (TJson.obj [("vehicles", TJson.arr [] true)] true) = true ∧
    isObjT (TJson.obj [("vehicles", TJson.arr [] true)] true) = true ∧
    repairAttempt (renderT (TJson.obj [("vehicles", TJson.arr [] true)] true)) =
      some (eraseT (TJson.obj [("vehicles", TJson.arr [] true)] true)) :=
  ⟨rfl, rfl, repair_trailing_comma_objects _ rfl rfl⟩

end LedgerAI

